import Mathlib

/-!
Verification model of the mtpt multi-threaded path traversal engine.

This file gives a shallow embedding, in Lean, of the engine in `mtpt.c`
(the current variant: task types, `pthread_barrier_t`, priority comparator)
and of its worker pool in `threadpool.c`, and proves properties of the
embedding that settle the specification's claims.

Modelling conventions:
* Machine integers (`size_t`, `int`) are modelled as `Nat`/`Int`; the `errno`
  values carried around are opaque `Int`s.
* The filesystem as observed by the engine (`lstat`/`opendir`/`readdir`
  results) is pre-encoded in a tree `FNode`; each child entry records the
  outcome the corresponding syscall would produce.
* Callbacks are Lean functions returning opaque tokens of a type parameter
  `τ`; the `dir_enter` continuation has type `Option κ` (NULL = `none`).
* The engine is concurrent.  Task handlers are modelled as atomic steps and
  the worker-pool schedule is fixed to the canonical depth-first order in
  which tasks are spawned; the properties proved here (callback counts, data
  slots, parent/child trace ordering) are those the C code realises through
  its `children` join counter and are schedule-invariant at this granularity.
* Events carry a ghost `pos : List String` (the name path from the root) that
  identifies which tree node an invocation belongs to, next to the actual
  `path : String` argument the callback receives.
-/

/-! ## Definitions: the embedded program -/

/-! ## String comparison (C `strcmp`, sign only) -/

/-- Sign of C `strcmp` on character lists: `-1`, `0` or `1`. -/
def strcmp3 : List Char → List Char → Int
  | [], [] => 0
  | [], _ :: _ => -1
  | _ :: _, [] => 1
  | a :: as, b :: bs =>
      if a.toNat < b.toNat then -1
      else if b.toNat < a.toNat then 1
      else strcmp3 as bs

/-- Sign of C `strcmp` on strings. -/
def strcmpZ (a b : String) : Int :=
  strcmp3 a.data b.data

/-! ## Worker pool: FIFO ring buffer (`threadpool.c`, no `priority_cmp`)

The backing array is modelled as a total function `Nat → α` (a memory store);
`qsize` is the allocated capacity, a power of two, `qhead` the index of the
oldest element and `qcount` the number of queued elements.  Cells outside the
live window hold garbage, exactly as in C. -/

structure FifoQ (α : Type) where
  q : Nat → α
  qsize : Nat
  qhead : Nat
  qcount : Nat

/-- Store a task at slot `(qhead + qcount) & (qsize - 1)` and bump `qcount`
(`threadpool.c:155-159`). -/
def fifoWrite {α : Type} (s : FifoQ α) (t : α) : FifoQ α :=
  { s with
    q := fun j => if j = (s.qhead + s.qcount) &&& (s.qsize - 1) then t else s.q j,
    qcount := s.qcount + 1 }

/-- Double the ring when full: copy element `i` from `(qhead + i) & mask` into
slot `i` of the new array, reset `qhead` to 0 (`threadpool.c:136-153`).  Slots
at or above the old capacity are uninitialised in C; the model leaves the old
store's values there, and no proof reads them. -/
def fifoGrow {α : Type} (s : FifoQ α) : FifoQ α :=
  { q := fun i => if i < s.qsize then s.q ((s.qhead + i) &&& (s.qsize - 1)) else s.q i,
    qsize := s.qsize <<< 1,
    qhead := 0,
    qcount := s.qcount }

/-- `threadpool_add` in FIFO mode on the success path: grow when full, then
write at the tail.  The `SIZE_MAX/2` overflow guard and the malloc-failure
path return an error without touching the queue and are not modelled
(`Nat` does not overflow). -/
def fifoAdd {α : Type} (s : FifoQ α) (t : α) : FifoQ α :=
  if s.qcount = s.qsize then fifoWrite (fifoGrow s) t else fifoWrite s t

/-- Dequeue in FIFO mode (`threadpool.c:50,80-81`): take `q[qhead]`, advance
`qhead` by one modulo the capacity, decrement `qcount`. -/
def fifoPop {α : Type} (s : FifoQ α) : Option (α × FifoQ α) :=
  if s.qcount = 0 then none
  else some (s.q s.qhead,
    { s with qhead := (s.qhead + 1) &&& (s.qsize - 1), qcount := s.qcount - 1 })

/-- Abstraction of the ring to the queued list, oldest first. -/
def fifoAbs {α : Type} (s : FifoQ α) : List α :=
  (List.range s.qcount).map fun i => s.q ((s.qhead + i) &&& (s.qsize - 1))

/-- Well-formedness maintained by the C code: the capacity is the power of
two `2 ^ k`, the element count fits, and `qhead` is in range. -/
def fifoInv {α : Type} (s : FifoQ α) (k : Nat) : Prop :=
  s.qsize = 2 ^ k ∧ s.qcount ≤ s.qsize ∧ s.qhead < s.qsize

/-- Fresh pool queue: `qhead = qcount = 0`, capacity `2 ^ k`, garbage cells. -/
def fifoInit {α : Type} (a0 : α) (k : Nat) : FifoQ α :=
  ⟨fun _ => a0, 2 ^ k, 0, 0⟩

/-- An enqueue or a dequeue request against the pool queue. -/
inductive QOp (α : Type) where
  | add (t : α)
  | pop

/-- Run a request list against the concrete ring; collects dequeued tasks in
order.  A `pop` on an empty queue is a no-op (the worker would block). -/
def fifoRun {α : Type} : List (QOp α) → FifoQ α → FifoQ α × List α
  | [], s => (s, [])
  | .add t :: ops, s => fifoRun ops (fifoAdd s t)
  | .pop :: ops, s =>
      match fifoPop s with
      | none => fifoRun ops s
      | some (x, s1) =>
          let r := fifoRun ops s1
          (r.1, x :: r.2)

/-- Run a request list against the ideal FIFO queue (a list). -/
def specRun {α : Type} : List (QOp α) → List α → List α × List α
  | [], l => (l, [])
  | .add t :: ops, l => specRun ops (l ++ [t])
  | .pop :: ops, l =>
      match l with
      | [] => specRun ops []
      | x :: xs =>
          let r := specRun ops xs
          (r.1, x :: r.2)

/-! ## Worker pool: initial queue capacity (`ilog2`, `threadpool_init_prio`) -/

/-- Number of binary digits of `v`; the C loop
`for(i = -1; val; ++i) val >>= 1` returns `bitLen val - 1`. -/
def bitLen (v : Nat) : Nat :=
  if v = 0 then 0 else bitLen (v >>> 1) + 1
termination_by v
decreasing_by
  simp [Nat.shiftRight_succ]
  omega

/-- C `ilog2` (`threadpool.c:166-172`), ignoring its two assertions. -/
def cIlog2 (val : Nat) : Int :=
  (bitLen val : Int) - 1

/-- Initial ring capacity computed by `threadpool_init_prio`
(`threadpool.c:202`): `qmax == 0 ? 8 : 1 << (ilog2(qmax-1)+1)`.
`ilog2` asserts `val != 0` and `val <= ~(((size_t)-1) >> 1)` (that is
`2 ^ 63` for a 64-bit `size_t`); an assertion failure aborts the process and
is modelled as `none`. -/
def tpQsizeInit (qmax : Nat) : Option Nat :=
  if qmax = 0 then some 8
  else if qmax - 1 = 0 then none
  else if 2 ^ 63 < qmax - 1 then none
  else some (1 <<< (cIlog2 (qmax - 1) + 1).toNat)

/-! ## Traversal task priority (`mtpt_task_priority_cmp`, `mtpt.c:385-404`) -/

/-- The `mtpt_task_type` enum: `TASK_TYPE_DIR_ENTER = 0`, `TASK_TYPE_FILE = 1`,
`TASK_TYPE_DIR_EXIT = 2`. -/
inductive TaskType where
  | tDirEnter
  | tFile
  | tDirExit
deriving DecidableEq

/-- Numeric value of the enum constant. -/
def TaskType.toNat : TaskType → Nat
  | .tDirEnter => 0
  | .tFile => 1
  | .tDirExit => 2

/-- The two fields of a queued task that the comparator reads: the leading
`type` field shared by `mtpt_dir_task_t` and `mtpt_file_task_t`, and the
task's path. -/
structure PrioTask where
  ttype : TaskType
  path : String
deriving DecidableEq

/-- `mtpt_task_priority_cmp`: `diff = *type_a - *type_b`; if nonzero return
it; otherwise, when `MTPT_CONFIG_SORT` is set, return
`strcmp(task_b->path, task_a->path)` (both branches of the C `if` do this),
else 0.  Per the pool contract, `cmp(a,b) > 0` means `a` is dequeued
before `b`. -/
def mtptTaskPriorityCmp (sortCfg : Bool) (a b : PrioTask) : Int :=
  let diff : Int := (a.ttype.toNat : Int) - (b.ttype.toNat : Int)
  if diff ≠ 0 then diff
  else if sortCfg then strcmpZ b.path a.path else 0

/-! ## Traversal engine (`mtpt.c`): filesystem model

`FNode` pre-encodes what the engine's syscalls observe.  A directory child is
one of: `gone` (its `lstat` fails with `ENOENT`), `lerr` (its `lstat` fails
with another error), `file` (its `lstat` succeeds and `S_ISDIR` is false), or
`dir` (its `lstat` succeeds and `S_ISDIR` is true).  For a directory,
`openOk = false` means its `opendir`, or the subsequent `readdir` loop, fails
(the two failure paths of `mtpt_dir_enter_task_handler` are observably
identical); `cs` is the `readdir` listing in on-disk order, `.` and `..`
already skipped, with its `st_mode`-payload `st` an opaque number. -/

inductive FNode where
  | file : Nat → FNode
  | gone : FNode
  | lerr : FNode
  | dir : Nat → Bool → List (String × FNode) → FNode

/-- Callback bundle of an `mtpt` call; each member may be NULL (`none`), as in
`mtpt.h`.  A callback receives the path and the opaque stat payload; the
`user_arg` is folded into the closures.  `dir_enter` returns the C `int`
result as a `Bool` and the value it leaves in `*continuation`. -/
structure MtptCbs (τ κ : Type) where
  dirEnterM : Option (String → Nat → Bool × Option κ)
  dirExitM : Option (String → Nat → Option κ → List (String × Option τ) → τ)
  fileM : Option (String → Nat → τ)
  errM : Option (String → Option Nat → Option κ → τ)

/-- Configuration of an `mtpt` call: the callbacks plus the two
`MTPT_CONFIG_*` bits. -/
structure MtptCfg (τ κ : Type) where
  cbs : MtptCbs τ κ
  fileTasks : Bool
  sortEntries : Bool

/-- One observable callback invocation, as recorded in a run trace.
`pos` is the ghost identity of the node (its name path from the root);
`path` is the string argument the callback receives; the final `τ`
component is the token it returns. -/
inductive MtptEv (τ κ : Type) where
  | enterE (pos : List String) (path : String) (st : Nat) (res : Bool)
  | exitE (pos : List String) (path : String) (st : Nat) (cont : Option κ)
      (obs : List (String × Option τ)) (ret : τ)
  | fileE (pos : List String) (path : String) (st : Nat) (ret : τ)
  | errE (pos : List String) (path : String) (st : Option Nat) (cont : Option κ) (ret : τ)
deriving DecidableEq

/-- Result of running one task to completion (together with everything it
transitively spawned): the trace of callback invocations, the final value of
the task's own data slot (`*task->data`, `none` = still NULL), and whether
the task chain notified its parent (`mtpt_dir_task_child_finished` /
`mtpt_root_task_finished` reached). -/
structure TaskRes (τ κ : Type) where
  trace : List (MtptEv τ κ)
  slot : Option τ
  notified : Bool
deriving DecidableEq

/-- Accumulator of the `DIR_ENTER` handler's child loop: the trace of the
children's work, the entries array as `dir_exit` will observe it
(name and final `data` per entry, in loop order), the values successively
written to the *enumerating task's own* slot (`*task->data`, only by the
child-`lstat`-failure error path), and whether every spawned child
eventually notified this task. -/
structure ChildrenAcc (τ κ : Type) where
  trace : List (MtptEv τ κ)
  obs : List (String × Option τ)
  pwrites : List τ
  allNotified : Bool
deriving DecidableEq

/-- Outcome of the `dir_enter` callback at the top of
`mtpt_dir_enter_task_handler` (`mtpt.c:252-263`): events recorded, whether to
proceed into the directory, and the continuation left in
`task->continuation` (NULL when the callback is NULL). -/
structure EnterOut (τ κ : Type) where
  evs : List (MtptEv τ κ)
  proceed : Bool
  cont : Option κ
deriving DecidableEq

/-- The `dir_enter` step. -/
def enterStep {τ κ : Type} (C : MtptCfg τ κ) (pos : List String) (path : String)
    (st : Nat) : EnterOut τ κ :=
  match C.cbs.dirEnterM with
  | some f => ⟨[.enterE pos path st (f path st).1], (f path st).1, (f path st).2⟩
  | none => ⟨[], true, none⟩

/-- Ordering used by `qsort(entries, ..., mtpt_dir_entry_pcmp)`: `strcmp` on
entry names.  The model's sort is stable where `qsort` is unspecified on
ties; names in one directory are distinct on a real filesystem. -/
def entLe (x y : String × FNode) : Prop :=
  strcmpZ x.1 y.1 ≤ 0

instance : DecidableRel entLe := fun x y => by
  unfold entLe
  infer_instance

/-- The `readdir` listing as the child loop iterates it: sorted by name when
`MTPT_CONFIG_SORT` is set (`mtpt.c:309-311`). -/
def effEntries {τ κ : Type} (C : MtptCfg τ κ) (cs : List (String × FNode)) :
    List (String × FNode) :=
  if C.sortEntries then List.insertionSort entLe cs else cs

mutual
/-- Run one traversal task and everything it spawns, under the canonical
schedule.  `pos`/`path` identify the node.

For `.file` this is `mtpt_file_task_handler` (`mtpt.c:201-213`): call
`file_method` if set and store its result in the task's slot; the parent is
always notified.  (`.gone` and `.lerr` never become tasks; the arms are
inert.)

For `.dir` this is `mtpt_dir_enter_task_handler` (`mtpt.c:242-383`) together
with the `DIR_EXIT` handler it leads to (`mtpt.c:215-240`):
1. `dir_enter`, if set; on a zero result notify the parent (or the root
   barrier) and free the task — no further callback for this directory.
2. `opendir`/`readdir`; on failure report through `error_method` into the
   task's own slot and return — the C code does *not* notify the parent here.
3. Iterate the (possibly sorted) entries, spawning children.
4. When every spawned child has notified (`children == 0`, or none spawned),
   the `DIR_EXIT` handler runs: `dir_exit`, if set, observes the entries
   array and its result overwrites the task's slot; then the parent (or the
   root barrier) is notified. -/
def runNode {τ κ : Type} (C : MtptCfg τ κ) : FNode → List String → String → TaskRes τ κ
  | .file st, pos, path =>
      match C.cbs.fileM with
      | some f => ⟨[.fileE pos path st (f path st)], some (f path st), true⟩
      | none => ⟨[], none, true⟩
  | .gone, _, _ => ⟨[], none, true⟩
  | .lerr, _, _ => ⟨[], none, true⟩
  | .dir st openOk cs, pos, path =>
      let ent := enterStep C pos path st
      if ent.proceed = false then
        ⟨ent.evs, none, true⟩
      else if openOk = false then
        match C.cbs.errM with
        | some e =>
            ⟨ent.evs ++ [.errE pos path (some st) ent.cont (e path (some st) ent.cont)],
              some (e path (some st) ent.cont), false⟩
        | none => ⟨ent.evs, none, false⟩
      else
        let acc := runChildren C (effEntries C cs) pos path
        if acc.allNotified then
          match C.cbs.dirExitM with
          | some g =>
              ⟨ent.evs ++ acc.trace
                  ++ [.exitE pos path st ent.cont acc.obs (g path st ent.cont acc.obs)],
                some (g path st ent.cont acc.obs), true⟩
          | none => ⟨ent.evs ++ acc.trace, acc.pwrites.getLast?, true⟩
        else
          ⟨ent.evs ++ acc.trace, acc.pwrites.getLast?, false⟩
termination_by n _ _ => sizeOf n
decreasing_by
  simp [effEntries]
  split
  · have hps : ∀ (l1 l2 : List (String × FNode)), l1.Perm l2 → sizeOf l1 = sizeOf l2 := by
      intro l1 l2 h
      induction h with
      | nil => rfl
      | cons x _ ih => simp [ih]
      | swap x y l => simp; omega
      | trans _ _ ih1 ih2 => omega
    have := hps _ _ (List.perm_insertionSort entLe cs)
    omega
  · omega

/-- One iteration of the child loop of `mtpt_dir_enter_task_handler`
(`mtpt.c:318-377`), for the entry `name`:
* `gone`: `lstat` fails with `ENOENT` — `continue`, no callback, the entry
  keeps NULL data;
* `lerr`: `lstat` fails otherwise — `error_method(path, NULL, NULL)` and its
  result is written to `*task->data`, the *enumerating* task's own slot
  (`mtpt.c:326-331`); the entry keeps NULL data;
* `file`: `file_method` runs (as its own task under `MTPT_CONFIG_FILE_TASKS`,
  else inline; same observables under the canonical schedule) and its result
  becomes the entry's data;
* `dir`: a child directory task is spawned and run.

Child-task allocation failures and submission failures (`mtpt.c:336,342,
355,361`; the spec treats both as a child-submit failure reported through
`error_method`) are not modelled: in the model allocation and submission to
the unbounded queue always succeed. -/
def childOne {τ κ : Type} (C : MtptCfg τ κ) (name : String) (n : FNode)
    (ppos : List String) (ppath : String) : ChildrenAcc τ κ :=
  match n with
  | .gone => ⟨[], [(name, none)], [], true⟩
  | .lerr =>
      match C.cbs.errM with
      | some e =>
          ⟨[.errE (ppos ++ [name]) (ppath ++ "/" ++ name) none none
              (e (ppath ++ "/" ++ name) none none)],
            [(name, none)], [e (ppath ++ "/" ++ name) none none], true⟩
      | none => ⟨[], [(name, none)], [], true⟩
  | .file st =>
      match C.cbs.fileM with
      | some f =>
          ⟨[.fileE (ppos ++ [name]) (ppath ++ "/" ++ name) st
              (f (ppath ++ "/" ++ name) st)],
            [(name, some (f (ppath ++ "/" ++ name) st))], [], true⟩
      | none => ⟨[], [(name, none)], [], true⟩
  | .dir st openOk ccs =>
      let r := runNode C (.dir st openOk ccs) (ppos ++ [name]) (ppath ++ "/" ++ name)
      ⟨r.trace, [(name, r.slot)], [], r.notified⟩
termination_by sizeOf n + 1
decreasing_by
  simp

/-- The whole child loop, in iteration order. -/
def runChildren {τ κ : Type} (C : MtptCfg τ κ) :
    List (String × FNode) → List String → String → ChildrenAcc τ κ
  | [], _, _ => ⟨[], [], [], true⟩
  | (name, n) :: rest, ppos, ppath =>
      let one := childOne C name n ppos ppath
      let acc := runChildren C rest ppos ppath
      ⟨one.trace ++ acc.trace, one.obs ++ acc.obs, one.pwrites ++ acc.pwrites,
        one.allNotified && acc.allNotified⟩
termination_by cs _ _ => sizeOf cs
decreasing_by
  all_goals first
  | (simp; omega)
  | simp
end

/-! ## The `mtpt` entry point (`mtpt.c:406-493`) -/

/-- The `lstat` of the root path and, for a directory root, what the engine
will observe below it. -/
inductive RootStat where
  | statErr (e : Int)
  | fileRoot (st : Nat)
  | dirRoot (st : Nat) (openOk : Bool) (cs : List (String × FNode))

/-- Outcomes of the fallible setup calls inside `mtpt`, in program order:
`mtpt_dir_task_new` for the root task (malloc or `pthread_mutex_init`),
`pthread_mutex_init(&mtpt.mutex)`, `pthread_barrier_init`,
`threadpool_init_prio`, and the first `threadpool_add`.  `none` is success;
`some e` is failure with `errno` value `e`. -/
structure MtptEnv where
  rootAllocRc : Option Int
  mutexInitRc : Option Int
  barrierInitRc : Option Int
  poolInitRc : Option Int
  submitRc : Option Int

/-- Result of an `mtpt` call.  `ret code errnoOut wroteData dataOut trace`:
the function returned `code` with `errno` set to `errnoOut` (`none` =
untouched), `wroteData` says whether `*data` was assigned, `dataOut` is the
value assigned, and `trace` lists the callback invocations.  `nullDeref` is
the call of a NULL `file_method` for a non-directory root (`mtpt.c:429`).
`hang` is a traversal whose root task never signals the completion barrier:
`pthread_barrier_wait(&mtpt.finished)` blocks forever and `mtpt` never
returns. -/
inductive MtptOut (τ κ : Type) where
  | ret (code : Int) (errnoOut : Option Int) (wroteData : Bool)
      (dataOut : Option τ) (trace : List (MtptEv τ κ))
  | nullDeref
  | hang (trace : List (MtptEv τ κ))
deriving DecidableEq

/-- The `mtpt` entry point: root `lstat`; non-directory roots handled inline
on the calling thread; otherwise allocate the root task, initialise the
context and the pool, submit the root `DIR_ENTER`, wait on the barrier, and
copy the root result `d` into `*data`. -/
def mtptM {τ κ : Type} (env : MtptEnv) (C : MtptCfg τ κ) (path : String)
    (rs : RootStat) : MtptOut τ κ :=
  match rs with
  | .statErr e => .ret (-1) (some e) false none []
  | .fileRoot st =>
      match C.cbs.fileM with
      | none => .nullDeref
      | some f => .ret 0 none true (some (f path st)) [.fileE [] path st (f path st)]
  | .dirRoot st openOk cs =>
      match env.rootAllocRc with
      | some e => .ret (-1) (some e) false none []
      | none =>
      match env.mutexInitRc with
      | some e => .ret (-1) (some e) false none []
      | none =>
      match env.barrierInitRc with
      | some e => .ret (-1) (some e) false none []
      | none =>
      match env.poolInitRc with
      | some e => .ret (-1) (some e) false none []
      | none =>
      match env.submitRc with
      | some e => .ret (-1) (some e) false none []
      | none =>
        let r := runNode C (.dir st openOk cs) [] path
        if r.notified then .ret 0 none true r.slot r.trace
        else .hang r.trace

/-! ## Trace observations -/

/-- Ghost position of an event. -/
def evPos {τ κ : Type} : MtptEv τ κ → List String
  | .enterE p _ _ _ => p
  | .exitE p _ _ _ _ _ => p
  | .fileE p _ _ _ => p
  | .errE p _ _ _ _ => p

/-- Number of `dir_exit` invocations recorded for the node at position `q`. -/
def exitCountAt {τ κ : Type} (tr : List (MtptEv τ κ)) (q : List String) : Nat :=
  (tr.filter fun e =>
    match e with
    | .exitE p _ _ _ _ _ => decide (p = q)
    | _ => false).length

/-- The entries arrays observed by the `dir_exit` invocations recorded for
the node at position `q`. -/
def obsOfExitsAt {τ κ : Type} (tr : List (MtptEv τ κ)) (q : List String) :
    List (List (String × Option τ)) :=
  tr.filterMap fun e =>
    match e with
    | .exitE p _ _ _ obs _ => if p = q then some obs else none
    | _ => none

/-- The token returned by an event's callback (`dir_enter` returns a status
and a continuation, not a token). -/
def evTok {τ κ : Type} : MtptEv τ κ → Option τ
  | .enterE _ _ _ _ => none
  | .exitE _ _ _ _ _ t => some t
  | .fileE _ _ _ t => some t
  | .errE _ _ _ _ t => some t

/-- All tokens returned by callbacks in a trace, in order. -/
def emitted {τ κ : Type} (tr : List (MtptEv τ κ)) : List τ :=
  tr.filterMap evTok

/-- The non-NULL `entries[i].data` values a single event presents to
`dir_exit`. -/
def evObsToks {τ κ : Type} : MtptEv τ κ → List τ
  | .exitE _ _ _ _ obs _ => obs.filterMap Prod.snd
  | _ => []

/-- All tokens observed through some `dir_exit`'s entries array. -/
def observedInExits {τ κ : Type} (tr : List (MtptEv τ κ)) : List τ :=
  (tr.map evObsToks).flatten

/-! ## Addressing nodes of the filesystem model -/

/-- First child with the given name. -/
def lookupChild : List (String × FNode) → String → Option FNode
  | [], _ => none
  | (nm, n) :: rest, cname => if nm = cname then some n else lookupChild rest cname

/-- Node at a name path. -/
def nodeAt : FNode → List String → Option FNode
  | n, [] => some n
  | .dir _ _ cs, cname :: q =>
      match lookupChild cs cname with
      | some c => nodeAt c q
      | none => none
  | _, _ :: _ => none

/-- Path string the engine builds for the node at a name path
(`snprintf(path, PATH_MAX, "%s/%s", task->path, entry->name)`; the
`PATH_MAX` truncation is not modelled). -/
def pathAt (path : String) : List String → String
  | [] => path
  | nm :: rest => pathAt (path ++ "/" ++ nm) rest

mutual
/-- Every directory of the tree lists pairwise distinct child names (true of
a real filesystem snapshot). -/
def nodupTree : FNode → Bool
  | .dir _ _ cs => decide (cs.map Prod.fst).Nodup && nodupList cs
  | _ => true
termination_by n => sizeOf n

/-- List form of `nodupTree`. -/
def nodupList : List (String × FNode) → Bool
  | [] => true
  | (_, n) :: rest => nodupTree n && nodupList rest
termination_by cs => sizeOf cs
decreasing_by
  all_goals simp
  all_goals omega
end

mutual
/-- A subtree on which the engine encounters no filesystem errors: every
directory opens and reads successfully and no child `lstat` fails with an
error other than `ENOENT`. -/
def cleanNode : FNode → Bool
  | .file _ => true
  | .gone => true
  | .lerr => false
  | .dir _ openOk cs => openOk && cleanList cs
termination_by n => sizeOf n

/-- List form of `cleanNode`. -/
def cleanList : List (String × FNode) → Bool
  | [] => true
  | (_, n) :: rest => cleanNode n && cleanList rest
termination_by cs => sizeOf cs
decreasing_by
  all_goals simp
  all_goals omega
end

/-- Clean root observation for an `mtpt` call. -/
def cleanRoot : RootStat → Bool
  | .statErr _ => true
  | .fileRoot _ => true
  | .dirRoot _ openOk cs => openOk && cleanList cs

/-! ## Concrete traversals used as explicit inputs -/

/-- All five setup steps succeed. -/
def envOK : MtptEnv :=
  ⟨none, none, none, none, none⟩

/-- All four callbacks set; tokens are numbers: `dir_exit` returns 200,
`file_method` 300, `error_method` 100; `dir_enter` continues everywhere. -/
def cbsAll : MtptCbs Nat Nat :=
  ⟨some fun _ _ => (true, none),
    some fun _ _ _ _ => 200,
    some fun _ _ => 300,
    some fun _ _ _ => 100⟩

/-- Callbacks `cbsAll`, `MTPT_CONFIG_FILE_TASKS` and `MTPT_CONFIG_SORT`
clear. -/
def cfgAll : MtptCfg Nat Nat :=
  ⟨cbsAll, false, false⟩

/-- The trace at which the opendir-failure traversal stops. -/
def trHang : List (MtptEv Nat Nat) :=
  [.enterE [] "/t" 1 true, .enterE ["sub"] "/t/sub" 2 true,
    .errE ["sub"] "/t/sub" (some 2) none 100]

/-! ## Return value, errno and the caller's data slot (`mtpt.c:406-493`) -/

/-- The first failing setup step of `mtpt` and its `errno` value, in program
order; `none` when setup succeeds (for a non-directory root there is no
setup). -/
def mtptSetupFail (env : MtptEnv) (rs : RootStat) : Option Int :=
  match rs with
  | .statErr e => some e
  | .fileRoot _ => none
  | .dirRoot _ _ _ =>
      match env.rootAllocRc with
      | some e => some e
      | none =>
      match env.mutexInitRc with
      | some e => some e
      | none =>
      match env.barrierInitRc with
      | some e => some e
      | none =>
      match env.poolInitRc with
      | some e => some e
      | none => env.submitRc

/-! ## Token conservation (claim C3) -/

/-- Callbacks for the token-loss counterexample: `dir_exit` (returns 200) and
`error_method` (returns 100) set, the others NULL. -/
def cbsErrExit : MtptCbs Nat Nat :=
  ⟨none, some fun _ _ _ _ => 200, none, some fun _ _ _ => 100⟩

/-- Configuration around `cbsErrExit`, both config bits clear. -/
def cfgErrExit : MtptCfg Nat Nat :=
  ⟨cbsErrExit, false, false⟩

/-- The trace of the token-loss run. -/
def trLost : List (MtptEv Nat Nat) :=
  [.errE ["x"] "/t/x" none none 100, .exitE [] "/t" 1 none [("x", none)] 200]

/-- Trace of the clean one-file traversal used as the conservation witness. -/
def trCleanRun : List (MtptEv Nat Nat) :=
  [.enterE [] "/t" 1 true, .fileE ["a"] "/t/a" 5 300,
    .exitE [] "/t" 1 none [("a", some 300)] 200]

/-! ## Event origins and positions (claims C2 and C5) -/

/-- Whether an event is a `dir_exit` invocation. -/
def isExitEv {τ κ : Type} : MtptEv τ κ → Bool
  | .exitE _ _ _ _ _ _ => true
  | _ => false

/-- The entries array an event presents to `dir_exit` (junk for others). -/
def evObs {τ κ : Type} : MtptEv τ κ → List (String × Option τ)
  | .exitE _ _ _ _ obs _ => obs
  | _ => []

/-- Callbacks whose `dir_enter` returns zero exactly for `/t/skipme`. -/
def cbsSkip : MtptCbs Nat Nat :=
  ⟨some fun p _ => (!(p == "/t/skipme"), none),
    some fun _ _ _ _ => 200, some fun _ _ => 300, some fun _ _ _ => 100⟩

/-- Configuration around `cbsSkip`, both config bits clear. -/
def cfgSkip : MtptCfg Nat Nat :=
  ⟨cbsSkip, false, false⟩

/-- Root directory with a subdirectory `skipme` (itself nonempty) and a file
`z`. -/
def skipTree : FNode :=
  .dir 1 true [("skipme", .dir 7 true [("x", .file 3)]), ("z", .file 9)]

/-- Root directory with a vanished child `x` and a file `z`. -/
def goneTree : FNode :=
  .dir 1 true [("x", .gone), ("z", .file 9)]

/-- Trace of the vanished-child run. -/
def trGone : List (MtptEv Nat Nat) :=
  [.enterE [] "/t" 1 true, .fileE ["z"] "/t/z" 9 300,
    .exitE [] "/t" 1 none [("x", none), ("z", some 300)] 200]

/-! ## Theorems -/

theorem strcmp3_swap : ∀ (a b : List Char), strcmp3 b a = - strcmp3 a b
  | [], [] => rfl
  | [], _ :: _ => rfl
  | _ :: _, [] => rfl
  | a :: as, b :: bs => by
      simp only [strcmp3]
      rcases Nat.lt_trichotomy a.toNat b.toNat with h | h | h
      · simp [h, Nat.lt_asymm h]
      · simp [h, Nat.lt_irrefl, strcmp3_swap as bs]
      · simp [h, Nat.lt_asymm h]

theorem strcmpZ_swap (a b : String) : strcmpZ b a = - strcmpZ a b :=
  strcmp3_swap a.data b.data

theorem bitLen_zero : bitLen 0 = 0 := by
  simp [bitLen]

theorem bitLen_pos {v : Nat} (h : v ≠ 0) : 0 < bitLen v := by
  rw [bitLen]
  simp [h]

theorem lt_two_pow_bitLen : ∀ v : Nat, v < 2 ^ bitLen v
  | 0 => by simp [bitLen]
  | v + 1 => by
      have hne : v + 1 ≠ 0 := by omega
      have hlt : (v + 1) >>> 1 < v + 1 := by
        simp [Nat.shiftRight_succ]
        omega
      have ih := lt_two_pow_bitLen ((v + 1) >>> 1)
      rw [bitLen, if_neg hne]
      simp only [Nat.shiftRight_succ, Nat.shiftRight_zero] at ih ⊢
      have : (v + 1) / 2 < 2 ^ bitLen ((v + 1) / 2) := ih
      rw [pow_succ]
      omega

/-- For `qmax ≥ 2` within the assertion bound, the initial capacity is a
power of two at least `qmax`. -/
theorem tpQsizeInit_pow_two_ge (qmax : Nat) (h2 : 2 ≤ qmax) (hb : qmax - 1 ≤ 2 ^ 63) :
    ∃ k, tpQsizeInit qmax = some (2 ^ k) ∧ qmax ≤ 2 ^ k := by
  have h0 : ¬ qmax = 0 := by omega
  have h1 : ¬ qmax - 1 = 0 := by omega
  have hb2 : ¬ 2 ^ 63 < qmax - 1 := by omega
  have hp := bitLen_pos h1
  have hexp : (cIlog2 (qmax - 1) + 1).toNat = bitLen (qmax - 1) := by
    simp only [cIlog2]
    omega
  refine ⟨bitLen (qmax - 1), ?_, ?_⟩
  · rw [tpQsizeInit, if_neg h0, if_neg h1, if_neg hb2, hexp, Nat.shiftLeft_eq, one_mul]
  · have := lt_two_pow_bitLen (qmax - 1)
    omega

/-! ## FIFO refinement proofs -/

theorem add_mod_inj {n a i j : Nat} (hi : i < n) (hj : j < n)
    (h : (a + i) % n = (a + j) % n) : i = j := by
  have h2 : i % n = j % n := Nat.ModEq.add_left_cancel' a h
  rwa [Nat.mod_eq_of_lt hi, Nat.mod_eq_of_lt hj] at h2

theorem fifoAbs_write {α : Type} (s : FifoQ α) (t : α) (k : Nat)
    (hq : s.qsize = 2 ^ k) (hlt : s.qcount < s.qsize) :
    fifoAbs (fifoWrite s t) = fifoAbs s ++ [t] := by
  unfold fifoAbs fifoWrite
  simp only [hq, Nat.and_pow_two_sub_one_eq_mod] at hlt ⊢
  rw [List.range_succ, List.map_append, List.map_singleton]
  congr 1
  · apply List.map_congr_left
    intro i hi
    rw [List.mem_range] at hi
    have hne : ¬ (s.qhead + i) % 2 ^ k = (s.qhead + s.qcount) % 2 ^ k := by
      intro h
      have := add_mod_inj (by omega : i < 2 ^ k) (by omega : s.qcount < 2 ^ k) h
      omega
    simp [hne]
  · simp

theorem fifoGrow_qsize {α : Type} (s : FifoQ α) (k : Nat) (hq : s.qsize = 2 ^ k) :
    (fifoGrow s).qsize = 2 ^ (k + 1) := by
  show s.qsize <<< 1 = 2 ^ (k + 1)
  rw [Nat.shiftLeft_eq, hq, pow_one, ← pow_succ]

theorem fifoAbs_grow {α : Type} (s : FifoQ α) (k : Nat)
    (hq : s.qsize = 2 ^ k) (hc : s.qcount ≤ s.qsize) :
    fifoAbs (fifoGrow s) = fifoAbs s := by
  have h1 : (2 : Nat) ^ k <<< 1 = 2 ^ (k + 1) := by
    rw [Nat.shiftLeft_eq, pow_one, ← pow_succ]
  unfold fifoAbs fifoGrow
  simp only [hq, h1, Nat.and_pow_two_sub_one_eq_mod, Nat.zero_add]
  apply List.map_congr_left
  intro i hi
  rw [List.mem_range] at hi
  have hik : i < 2 ^ (k + 1) := by
    have : (2 : Nat) ^ k ≤ 2 ^ (k + 1) := Nat.pow_le_pow_right (by omega) (by omega)
    omega
  rw [Nat.mod_eq_of_lt hik, if_pos (show i < 2 ^ k by omega)]

theorem fifoGrow_fields {α : Type} (s : FifoQ α) :
    (fifoGrow s).qsize = s.qsize <<< 1 ∧ (fifoGrow s).qhead = 0
      ∧ (fifoGrow s).qcount = s.qcount :=
  ⟨rfl, rfl, rfl⟩

theorem fifoAdd_spec {α : Type} (s : FifoQ α) (t : α) (k : Nat) (h : fifoInv s k) :
    ∃ k2, fifoInv (fifoAdd s t) k2 ∧ fifoAbs (fifoAdd s t) = fifoAbs s ++ [t] := by
  obtain ⟨hq, hc, hh⟩ := h
  unfold fifoAdd
  by_cases hfull : s.qcount = s.qsize
  · have hg : (fifoGrow s).qsize = 2 ^ (k + 1) := fifoGrow_qsize s k hq
    have hpow : (2 : Nat) ^ k < 2 ^ (k + 1) := Nat.pow_lt_pow_right (by omega) (by omega)
    have hgc : (fifoGrow s).qcount < (fifoGrow s).qsize := by
      show s.qcount < (fifoGrow s).qsize
      rw [hg]
      omega
    refine ⟨k + 1, ?_, ?_⟩
    · rw [if_pos hfull]
      refine ⟨hg, ?_, ?_⟩
      · show (fifoGrow s).qcount + 1 ≤ (fifoGrow s).qsize
        omega
      · show (0 : Nat) < (fifoGrow s).qsize
        omega
    · rw [if_pos hfull]
      rw [fifoAbs_write (fifoGrow s) t (k + 1) hg hgc, fifoAbs_grow s k hq hc]
  · refine ⟨k, ?_, ?_⟩
    · rw [if_neg hfull]
      refine ⟨hq, ?_, ?_⟩
      · show s.qcount + 1 ≤ s.qsize
        omega
      · show s.qhead < s.qsize
        omega
    · rw [if_neg hfull]
      exact fifoAbs_write s t k hq (by omega)

theorem fifoAbs_cons {α : Type} (s : FifoQ α) (k : Nat) (h : fifoInv s k)
    (hne : s.qcount ≠ 0) :
    fifoAbs s = s.q s.qhead ::
      (List.range (s.qcount - 1)).map
        (fun i => s.q ((s.qhead + (i + 1)) % 2 ^ k)) := by
  obtain ⟨hq, hc, hh⟩ := h
  unfold fifoAbs
  simp only [hq, Nat.and_pow_two_sub_one_eq_mod]
  have hr : List.range s.qcount = List.range ((s.qcount - 1) + 1) := by
    congr 1
    omega
  rw [hr, List.range_succ_eq_map, List.map_cons, List.map_map]
  congr 1
  rw [Nat.add_zero, Nat.mod_eq_of_lt (by omega)]

theorem fifoPop_spec {α : Type} (s : FifoQ α) (k : Nat) (h : fifoInv s k)
    (x : α) (xs : List α) (habs : fifoAbs s = x :: xs) :
    ∃ s1, fifoPop s = some (x, s1) ∧ fifoInv s1 k ∧ fifoAbs s1 = xs := by
  have hlen := congrArg List.length habs
  simp [fifoAbs] at hlen
  have hne : s.qcount ≠ 0 := by omega
  obtain ⟨hq, hc, hh⟩ := h
  have hcons := fifoAbs_cons s k ⟨hq, hc, hh⟩ hne
  rw [habs] at hcons
  injection hcons with hx hxs
  refine ⟨{ s with qhead := (s.qhead + 1) &&& (s.qsize - 1), qcount := s.qcount - 1 },
    ?_, ?_, ?_⟩
  · unfold fifoPop
    rw [if_neg hne, hx]
  · refine ⟨hq, ?_, ?_⟩
    · show s.qcount - 1 ≤ s.qsize
      omega
    · show (s.qhead + 1) &&& (s.qsize - 1) < s.qsize
      simp only [hq, Nat.and_pow_two_sub_one_eq_mod]
      exact Nat.mod_lt _ (by positivity)
  · unfold fifoAbs
    simp only [hq, Nat.and_pow_two_sub_one_eq_mod]
    rw [hxs]
    apply List.map_congr_left
    intro i hi
    rw [Nat.mod_add_mod]
    have harg : s.qhead + 1 + i = s.qhead + (i + 1) := by omega
    rw [harg]

theorem fifoRun_spec {α : Type} :
    ∀ (ops : List (QOp α)) (s : FifoQ α) (k : Nat), fifoInv s k →
      fifoAbs (fifoRun ops s).1 = (specRun ops (fifoAbs s)).1
        ∧ (fifoRun ops s).2 = (specRun ops (fifoAbs s)).2
  | [], s, k, _ => ⟨rfl, rfl⟩
  | .add t :: ops, s, k, h => by
      obtain ⟨k2, h2, habs⟩ := fifoAdd_spec s t k h
      have ih := fifoRun_spec ops (fifoAdd s t) k2 h2
      simpa [fifoRun, specRun, habs] using ih
  | .pop :: ops, s, k, h => by
      by_cases hne : s.qcount = 0
      · have habs : fifoAbs s = [] := by simp [fifoAbs, hne]
        have hpop : fifoPop s = none := by simp [fifoPop, hne]
        have ih := fifoRun_spec ops s k h
        simpa [fifoRun, specRun, hpop, habs] using ih
      · have hlen : (fifoAbs s).length = s.qcount := by simp [fifoAbs]
        match hx : fifoAbs s with
        | [] =>
            rw [hx] at hlen
            exact absurd hlen.symm (by simpa using hne)
        | x :: xs =>
            obtain ⟨s1, hpop, hinv1, habs1⟩ := fifoPop_spec s k h x xs hx
            have ih := fifoRun_spec ops s1 k hinv1
            rw [habs1] at ih
            simp only [fifoRun, specRun, hpop, hx]
            exact ⟨ih.1, by rw [ih.2]⟩

/-- Claim C7: in FIFO mode (no priority comparator) the pool dequeues tasks in
exactly submission order; doubling the ring on overflow loses and duplicates
nothing.  Starting from a fresh queue of any power-of-two capacity, any
sequence of enqueues and dequeues produces exactly the dequeue sequence of an
ideal FIFO list queue, and leaves exactly the ideal queue contents behind. -/
theorem threadpool_fifo_refinement {α : Type} (a0 : α) (k : Nat) (ops : List (QOp α)) :
    fifoAbs (fifoRun ops (fifoInit a0 k)).1 = (specRun ops []).1
      ∧ (fifoRun ops (fifoInit a0 k)).2 = (specRun ops []).2 := by
  have hinv : fifoInv (fifoInit a0 k) k :=
    ⟨rfl, by simp [fifoInit], by simp [fifoInit]⟩
  have habs : fifoAbs (fifoInit a0 k) = [] := by simp [fifoAbs, fifoInit]
  have := fifoRun_spec ops (fifoInit a0 k) k hinv
  rwa [habs] at this

/-! ## Priority comparator: characterization and counterexample -/

theorem taskType_toNat_inj : ∀ a b : TaskType, a.toNat = b.toNat → a = b := by
  intro a b h
  cases a <;> cases b <;> first
  | rfl
  | simp [TaskType.toNat] at h

/-- Claim C6 (amended): the comparator orders first by task type with
`DIR_EXIT` (2) above `FILE` (1) above `DIR_ENTER` (0), so under the pool's
convention (`cmp(a,b) > 0` iff `a` is dequeued before `b`) `DIR_EXIT` tasks
are dequeued before `FILE` tasks and those before `DIR_ENTER` tasks; with
`MTPT_CONFIG_SORT` set, ties within a type are broken by `strcmp` with the
arguments swapped, which dequeues the lexicographically smaller path first. -/
theorem mtpt_priority_cmp_characterization (sortCfg : Bool) (a b : PrioTask) :
    0 < mtptTaskPriorityCmp sortCfg a b ↔
      (b.ttype.toNat < a.ttype.toNat
        ∨ (a.ttype = b.ttype ∧ sortCfg = true ∧ strcmpZ a.path b.path < 0)) := by
  unfold mtptTaskPriorityCmp
  by_cases hd : ((a.ttype.toNat : Int) - (b.ttype.toNat : Int)) ≠ 0
  · rw [if_pos hd]
    constructor
    · intro h
      left
      omega
    · rintro (h | ⟨he, _, _⟩)
      · omega
      · rw [he] at hd
        omega
  · rw [if_neg hd]
    push_neg at hd
    have hnat : a.ttype.toNat = b.ttype.toNat := by omega
    have heq : a.ttype = b.ttype := taskType_toNat_inj _ _ hnat
    have hnlt : ¬ b.ttype.toNat < a.ttype.toNat := by omega
    cases sortCfg
    · simp [hnlt]
    · rw [if_pos rfl, strcmpZ_swap]
      constructor
      · intro h
        exact Or.inr ⟨heq, rfl, neg_pos.mp h⟩
      · rintro (h | ⟨_, _, h⟩)
        · exact absurd h hnlt
        · exact neg_pos.mpr h

/-- Counterexample to claim C6 as stated: for two `FILE` tasks with `SORT`
set, the task with the lexicographically later path `"b"` compares *below*
the task with path `"a"` (`cmp = -1 < 0`), and the earlier path compares
above (`cmp = 1 > 0`): the earlier path, not the later one, is dequeued
first. -/
theorem mtpt_priority_tiebreak_counterexample :
    mtptTaskPriorityCmp true ⟨.tFile, "b"⟩ ⟨.tFile, "a"⟩ = -1
      ∧ mtptTaskPriorityCmp true ⟨.tFile, "a"⟩ ⟨.tFile, "b"⟩ = 1 := by
  constructor <;> decide

/-- List `sizeOf` is invariant under permutation (used for termination of
proofs that mirror the traversal through the sorted entry list). -/
theorem perm_sizeOf_eq {α : Type} [SizeOf α] {l1 l2 : List α} (h : l1.Perm l2) :
    sizeOf l1 = sizeOf l2 := by
  induction h with
  | nil => rfl
  | cons x _ ih => simp [ih]
  | swap x y l => simp; omega
  | trans _ _ ih1 ih2 => omega

/-- Claim C1: on a root directory `/t` whose single child `sub` is a
directory that fails to open (for example permission denied), the `DIR_ENTER`
handler of `sub` reports the error and returns without notifying its parent,
so `/t`'s outstanding-children counter never reaches zero: no `dir_exit` runs
for `/t` (nor for `sub`), the root barrier is never signalled, and `mtpt`
hangs in `pthread_barrier_wait` — where the claim requires exactly one
`dir_exit` for `/t` after its children finish.  The run stops after
`dir_enter("/t")`, `dir_enter("/t/sub")` and `error_method("/t/sub")`. -/
theorem mtpt_opendir_failure_hangs :
    mtptM envOK cfgAll "/t" (.dirRoot 1 true [("sub", .dir 2 false [])]) = .hang trHang
      ∧ exitCountAt trHang [] = 0
      ∧ exitCountAt trHang ["sub"] = 0 := by
  refine ⟨?_, by decide, by decide⟩
  simp +decide [mtptM, runNode, childOne, runChildren, enterStep, effEntries,
    envOK, cfgAll, cbsAll, trHang]

/-- Case inventory of every terminating `mtpt` call: either some setup step
failed — return `-1`, `errno` preserved from it, `*data` untouched, no
callback ran — or setup succeeded and it returned 0 with `*data` assigned. -/
theorem mtptM_ret_inv {τ κ : Type} (env : MtptEnv) (C : MtptCfg τ κ) (path : String)
    (rs : RootStat) (c : Int) (e : Option Int) (w : Bool) (d : Option τ)
    (tr : List (MtptEv τ κ)) (h : mtptM env C path rs = .ret c e w d tr) :
    (c = -1 ∧ w = false ∧ d = none ∧ tr = [] ∧ e = mtptSetupFail env rs
        ∧ (mtptSetupFail env rs).isSome = true)
      ∨ (c = 0 ∧ w = true ∧ e = none ∧ mtptSetupFail env rs = none) := by
  obtain ⟨ra, mi, bi, pi, si⟩ := env
  cases rs with
  | statErr e0 =>
      simp only [mtptM] at h
      injection h with h1 h2 h3 h4 h5
      subst h1 h2 h3 h4 h5
      simp [mtptSetupFail]
  | fileRoot st =>
      rcases hf : C.cbs.fileM with _ | f
      · simp only [mtptM, hf] at h
        injection h
      · simp only [mtptM, hf] at h
        injection h with h1 h2 h3 h4 h5
        subst h1 h2 h3 h4 h5
        simp [mtptSetupFail]
  | dirRoot st op cs =>
      cases ra with
      | some e0 =>
          simp only [mtptM] at h
          injection h with h1 h2 h3 h4 h5
          subst h1 h2 h3 h4 h5
          simp [mtptSetupFail]
      | none =>
      cases mi with
      | some e0 =>
          simp only [mtptM] at h
          injection h with h1 h2 h3 h4 h5
          subst h1 h2 h3 h4 h5
          simp [mtptSetupFail]
      | none =>
      cases bi with
      | some e0 =>
          simp only [mtptM] at h
          injection h with h1 h2 h3 h4 h5
          subst h1 h2 h3 h4 h5
          simp [mtptSetupFail]
      | none =>
      cases pi with
      | some e0 =>
          simp only [mtptM] at h
          injection h with h1 h2 h3 h4 h5
          subst h1 h2 h3 h4 h5
          simp [mtptSetupFail]
      | none =>
      cases si with
      | some e0 =>
          simp only [mtptM] at h
          injection h with h1 h2 h3 h4 h5
          subst h1 h2 h3 h4 h5
          simp [mtptSetupFail]
      | none =>
          simp only [mtptM] at h
          by_cases hn : (runNode C (.dir st op cs) [] path).notified = true
          · rw [if_pos hn] at h
            injection h with h1 h2 h3 h4 h5
            subst h1 h2 h3 h4 h5
            simp [mtptSetupFail]
          · rw [if_neg hn] at h
            injection h

/-- Claim C4 (amended): a terminating `mtpt` call returns nonzero exactly when
one of its setup steps failed — the root `lstat`, the root-task allocation
(`mtpt_dir_task_new`), the context `pthread_mutex_init` or
`pthread_barrier_init`, the pool initialisation, or the first task
submission — and in every such case `errno` carries the failing step's error
code; with setup successful, filesystem errors below the root surface only
through `error_method` and the call returns 0. -/
theorem mtpt_return_value_characterization {τ κ : Type} (env : MtptEnv)
    (C : MtptCfg τ κ) (path : String) (rs : RootStat) (c : Int) (e : Option Int)
    (w : Bool) (d : Option τ) (tr : List (MtptEv τ κ))
    (h : mtptM env C path rs = .ret c e w d tr) :
    (¬ c = 0 ↔ (mtptSetupFail env rs).isSome = true) ∧ e = mtptSetupFail env rs := by
  rcases mtptM_ret_inv env C path rs c e w d tr h with
    ⟨hc, _, _, _, he, hs⟩ | ⟨hc, _, he, hs⟩
  · subst hc he
    simp [hs]
  · subst hc he
    simp [hs]

/-- Witness for C4's theorem at a concrete input: setup all-successful on an
empty readable root directory; the call returns 0 with `errno` untouched. -/
theorem mtpt_return_value_characterization_witness :
    mtptM envOK cfgAll "/t" (.dirRoot 1 true []) =
        .ret 0 none true (some 200) [.enterE [] "/t" 1 true, .exitE [] "/t" 1 none [] 200]
      ∧ ((¬ (0 : Int) = 0 ↔ (mtptSetupFail envOK (.dirRoot 1 true [])).isSome = true)
          ∧ (none : Option Int) = mtptSetupFail envOK (.dirRoot 1 true [])) := by
  have hrun : mtptM envOK cfgAll "/t" (.dirRoot 1 true []) =
      .ret 0 none true (some 200) [.enterE [] "/t" 1 true, .exitE [] "/t" 1 none [] 200] := by
    simp +decide [mtptM, runNode, childOne, runChildren, enterStep, effEntries,
      envOK, cfgAll, cbsAll]
  exact ⟨hrun,
    mtpt_return_value_characterization envOK cfgAll "/t" (.dirRoot 1 true []) 0 none
      true (some 200) [.enterE [] "/t" 1 true, .exitE [] "/t" 1 none [] 200] hrun⟩

/-- Counterexample to claim C4 as stated: when the root-task allocation
(`mtpt_dir_task_new`, `mtpt.c:435-436`) fails with `errno` 12 (`ENOMEM`),
`mtpt` returns `-1` although the root `lstat` succeeded, the worker pool was
never initialised unsuccessfully (`poolInitRc = none`) and no submission was
attempted (`submitRc = none`) — a fourth nonzero-return cause the claim's
"iff" omits. -/
theorem mtpt_return_iff_counterexample :
    mtptM ⟨some 12, none, none, none, none⟩ cfgAll "/t" (.dirRoot 1 true [])
        = .ret (-1) (some 12) false none []
      ∧ (⟨some 12, none, none, none, none⟩ : MtptEnv).poolInitRc = none
      ∧ (⟨some 12, none, none, none, none⟩ : MtptEnv).submitRc = none :=
  ⟨rfl, rfl, rfl⟩

/-- Claim C10: a terminating `mtpt` call assigns `*data` exactly on the
success paths — it is written if and only if the call returns 0; whenever
`mtpt` returns `-1` the caller's slot is untouched. -/
theorem mtpt_data_written_iff_success {τ κ : Type} (env : MtptEnv)
    (C : MtptCfg τ κ) (path : String) (rs : RootStat) (c : Int) (e : Option Int)
    (w : Bool) (d : Option τ) (tr : List (MtptEv τ κ))
    (h : mtptM env C path rs = .ret c e w d tr) :
    w = true ↔ c = 0 := by
  rcases mtptM_ret_inv env C path rs c e w d tr h with
    ⟨hc, hw, _⟩ | ⟨hc, hw, _⟩
  · subst hc hw
    simp
  · subst hc hw
    simp

/-- Witness for C10's theorem: a failing root `lstat` (errno 13) returns `-1`
and leaves the data slot unwritten. -/
theorem mtpt_data_written_iff_success_witness :
    mtptM envOK cfgAll "/t" (.statErr 13) = .ret (-1) (some 13) false none []
      ∧ ((false = true) ↔ ((-1 : Int) = 0)) :=
  ⟨rfl, mtpt_data_written_iff_success envOK cfgAll "/t" (.statErr 13) (-1) (some 13)
    false none [] rfl⟩

/-- Claim C8: for a non-directory root, `mtpt` calls
`(*file_method)(arg, path, &st)` unconditionally (`mtpt.c:429`); with
`file_method == NULL` — which `mtpt.h` documents as allowed — this
dereferences a null function pointer instead of completing. -/
theorem mtpt_root_file_null_method_deref :
    mtptM envOK ⟨⟨none, none, none, none⟩, false, false⟩ "/f" (.fileRoot 7)
      = (MtptOut.nullDeref : MtptOut Nat Nat) := rfl

/-- Claim C9: `threadpool_init_prio` with `qmax = 1` evaluates
`ilog2(qmax - 1) = ilog2(0)` whose `assert(val != 0)` fails, aborting the
process instead of accepting the bounded queue; `qmax = 0` and `qmax = 2`
are accepted (capacities 8 and 2). -/
theorem threadpool_qsize_qmax_one_asserts :
    tpQsizeInit 1 = none ∧ tpQsizeInit 0 = some 8 ∧ tpQsizeInit 2 = some 2 := by
  refine ⟨rfl, rfl, ?_⟩
  simp [tpQsizeInit, cIlog2, bitLen]

/-- Counterexample to claim C3 as stated: on a root directory with one child
`x` whose `lstat` fails with a non-`ENOENT` error, `error_method` returns
token 100, which the handler writes into the *directory's own* data slot
(`*task->data`, `mtpt.c:328`); the directory's `dir_exit` then overwrites
that slot with 200 (`mtpt.c:224`).  Token 100 is emitted but observed
nowhere — neither in any `dir_exit` entries array (the `x` entry stays NULL)
nor in `out_root_data` (which receives 200) — so the multiset of emitted
tokens differs from the multiset of observed ones. -/
theorem mtpt_token_lost_counterexample :
    mtptM envOK cfgErrExit "/t" (.dirRoot 1 true [("x", .lerr)])
        = .ret 0 none true (some 200) trLost
      ∧ ¬ ((emitted trLost : Multiset Nat)
            = ↑(observedInExits trLost) + ↑((some 200 : Option Nat).toList)) := by
  constructor
  · simp +decide [mtptM, runNode, childOne, runChildren, enterStep, effEntries,
      envOK, cfgErrExit, cbsErrExit, trLost]
  · decide

theorem emitted_nil {τ κ : Type} : emitted ([] : List (MtptEv τ κ)) = [] := rfl

theorem emitted_append {τ κ : Type} (a b : List (MtptEv τ κ)) :
    emitted (a ++ b) = emitted a ++ emitted b :=
  List.filterMap_append a b evTok

theorem observedInExits_nil {τ κ : Type} :
    observedInExits ([] : List (MtptEv τ κ)) = [] := rfl

theorem observedInExits_append {τ κ : Type} (a b : List (MtptEv τ κ)) :
    observedInExits (a ++ b) = observedInExits a ++ observedInExits b := by
  simp [observedInExits]

/-- The `dir_enter` step emits no token and observes none. -/
theorem enterStep_no_tokens {τ κ : Type} (C : MtptCfg τ κ) (pos : List String)
    (path : String) (st : Nat) :
    emitted (enterStep C pos path st).evs = []
      ∧ observedInExits (enterStep C pos path st).evs = [] := by
  unfold enterStep
  rcases C.cbs.dirEnterM with _ | f <;> simp [emitted, evTok, observedInExits, evObsToks]

/-- A permutation of the entry list does not change cleanliness. -/
theorem cleanList_perm {cs es : List (String × FNode)} (h : cs.Perm es) :
    cleanList cs = cleanList es := by
  induction h with
  | nil => rfl
  | cons x _ ih => rw [cleanList, cleanList, ih]
  | swap x y l =>
      rw [cleanList, cleanList, cleanList, cleanList]
      rw [← Bool.and_assoc, ← Bool.and_assoc, Bool.and_comm (cleanNode y.2) (cleanNode x.2)]
  | trans _ _ ih1 ih2 => rw [ih1, ih2]

/-- Cleanliness of the listing as iterated by the child loop. -/
theorem cleanList_effEntries {τ κ : Type} (C : MtptCfg τ κ)
    {cs : List (String × FNode)} (h : cleanList cs = true) :
    cleanList (effEntries C cs) = true := by
  unfold effEntries
  split
  · rw [cleanList_perm (List.perm_insertionSort entLe cs)]
    exact h
  · exact h

mutual
/-- Token conservation for one clean task: it completes (notifies its
parent), and the multiset of tokens its subtree emits equals the multiset
observed in its subtree's `dir_exit` entries arrays plus the final content
of its own data slot. -/
theorem consNode {τ κ : Type} (C : MtptCfg τ κ) (g : String → Nat → Option κ →
    List (String × Option τ) → τ) (hg : C.cbs.dirExitM = some g) :
    ∀ (n : FNode) (pos : List String) (path : String), cleanNode n = true →
      (runNode C n pos path).notified = true
        ∧ ((emitted (runNode C n pos path).trace : Multiset τ)
            = ↑(observedInExits (runNode C n pos path).trace)
              + ↑((runNode C n pos path).slot.toList))
  | .file st, pos, path, _ => by
      rcases hf : C.cbs.fileM with _ | f <;>
        simp [runNode, hf, emitted, evTok, observedInExits, evObsToks]
  | .gone, pos, path, _ => by
      simp [runNode, emitted, observedInExits]
  | .lerr, pos, path, hc => by
      simp [cleanNode] at hc
  | .dir st openOk cs, pos, path, hc => by
      rw [cleanNode, Bool.and_eq_true] at hc
      obtain ⟨hop, hcs⟩ := hc
      subst hop
      obtain ⟨hnot, hpw, hcons⟩ := consChildren C g hg (effEntries C cs) pos path
        (cleanList_effEntries C hcs)
      have hent := enterStep_no_tokens C pos path st
      rcases hb : (enterStep C pos path st).proceed with _ | _
      · rw [runNode, if_pos (by rw [hb])]
        constructor
        · simp
        · simp [hent.1, hent.2]
      · rw [runNode, if_neg (by rw [hb]; simp), if_neg (by simp)]
        simp only [hnot, if_true, hg]
        constructor
        · simp
        · simp only [emitted_append, observedInExits_append, hent.1, hent.2,
            List.nil_append, Option.toList_some]
          have he1 : emitted [MtptEv.exitE pos path st (enterStep C pos path st).cont
                (runChildren C (effEntries C cs) pos path).obs
                (g path st (enterStep C pos path st).cont
                  (runChildren C (effEntries C cs) pos path).obs)]
              = [g path st (enterStep C pos path st).cont
                  (runChildren C (effEntries C cs) pos path).obs] := rfl
          have he2 : observedInExits [MtptEv.exitE pos path st (enterStep C pos path st).cont
                (runChildren C (effEntries C cs) pos path).obs
                (g path st (enterStep C pos path st).cont
                  (runChildren C (effEntries C cs) pos path).obs)]
              = (runChildren C (effEntries C cs) pos path).obs.filterMap Prod.snd := by
            simp [observedInExits, evObsToks]
          rw [he1, he2, ← Multiset.coe_add, ← Multiset.coe_add, hcons]
  termination_by n _ _ _ => sizeOf n
  decreasing_by
    simp [effEntries]
    split
    · have := perm_sizeOf_eq (List.perm_insertionSort entLe cs)
      omega
    · omega

/-- Token conservation for one clean child-loop iteration. -/
theorem consChildOne {τ κ : Type} (C : MtptCfg τ κ) (g : String → Nat → Option κ →
    List (String × Option τ) → τ) (hg : C.cbs.dirExitM = some g) :
    ∀ (name : String) (n : FNode) (ppos : List String) (ppath : String),
      cleanNode n = true →
      (childOne C name n ppos ppath).allNotified = true
        ∧ (childOne C name n ppos ppath).pwrites = []
        ∧ ((emitted (childOne C name n ppos ppath).trace : Multiset τ)
            = ↑(observedInExits (childOne C name n ppos ppath).trace)
              + ↑(((childOne C name n ppos ppath).obs).filterMap Prod.snd))
  | name, .gone, ppos, ppath, _ => by
      simp [childOne, emitted, observedInExits]
  | name, .lerr, ppos, ppath, hc => by
      simp [cleanNode] at hc
  | name, .file st, ppos, ppath, _ => by
      rcases hf : C.cbs.fileM with _ | f <;>
        simp [childOne, hf, emitted, evTok, observedInExits, evObsToks]
  | name, .dir st openOk ccs, ppos, ppath, hc => by
      have h := consNode C g hg (.dir st openOk ccs) (ppos ++ [name])
        (ppath ++ "/" ++ name) hc
      rw [childOne]
      exact ⟨h.1, rfl, by simpa using h.2⟩
  termination_by _ n _ _ _ => sizeOf n + 1
  decreasing_by
    simp

/-- Token conservation for the whole clean child loop. -/
theorem consChildren {τ κ : Type} (C : MtptCfg τ κ) (g : String → Nat → Option κ →
    List (String × Option τ) → τ) (hg : C.cbs.dirExitM = some g) :
    ∀ (cs : List (String × FNode)) (ppos : List String) (ppath : String),
      cleanList cs = true →
      (runChildren C cs ppos ppath).allNotified = true
        ∧ (runChildren C cs ppos ppath).pwrites = []
        ∧ ((emitted (runChildren C cs ppos ppath).trace : Multiset τ)
            = ↑(observedInExits (runChildren C cs ppos ppath).trace)
              + ↑(((runChildren C cs ppos ppath).obs).filterMap Prod.snd))
  | [], ppos, ppath, _ => by
      simp [runChildren, emitted, observedInExits]
  | (name, n) :: rest, ppos, ppath, hc => by
      rw [cleanList, Bool.and_eq_true] at hc
      have h1 := consChildOne C g hg name n ppos ppath hc.1
      have h2 := consChildren C g hg rest ppos ppath hc.2
      rw [runChildren]
      refine ⟨by simp [h1.1, h2.1], by simp [h1.2.1, h2.2.1], ?_⟩
      simp only [emitted_append, observedInExits_append, List.filterMap_append]
      rw [← Multiset.coe_add, ← Multiset.coe_add, ← Multiset.coe_add,
        h1.2.2, h2.2.2]
      abel
  termination_by cs _ _ _ => sizeOf cs
  decreasing_by
    all_goals first
    | (simp; omega)
    | simp
end

/-- Claim C3 (amended): on a traversal where every directory opens and reads
successfully and no child `lstat` fails with a non-`ENOENT` error, and with
`dir_exit` set, every token returned by a callback is observable exactly
once after the traversal — as multisets, the tokens returned by callbacks
equal the non-NULL `entries[i].data` values presented to `dir_exit`
invocations plus the value stored through `out_root_data`.  (Tokens returned
by `error_method` for child-`lstat` failures are excluded by the
counterexample: they are overwritten in the directory's own slot by its
`dir_exit` result.) -/
theorem mtpt_token_conservation_clean {τ κ : Type} (env : MtptEnv) (C : MtptCfg τ κ)
    (path : String) (rs : RootStat) (c : Int) (e : Option Int) (w : Bool)
    (d : Option τ) (tr : List (MtptEv τ κ))
    (g : String → Nat → Option κ → List (String × Option τ) → τ)
    (hg : C.cbs.dirExitM = some g) (hclean : cleanRoot rs = true)
    (h : mtptM env C path rs = .ret c e w d tr) :
    (emitted tr : Multiset τ) = ↑(observedInExits tr) + ↑(d.toList) := by
  obtain ⟨ra, mi, bi, pi, si⟩ := env
  cases rs with
  | statErr e0 =>
      simp only [mtptM] at h
      injection h with h1 h2 h3 h4 h5
      subst h4 h5
      simp [emitted, observedInExits]
  | fileRoot st =>
      rcases hf : C.cbs.fileM with _ | f
      · simp only [mtptM, hf] at h
        injection h
      · simp only [mtptM, hf] at h
        injection h with h1 h2 h3 h4 h5
        subst h4 h5
        simp [emitted, evTok, observedInExits, evObsToks]
  | dirRoot st op cs =>
      have hcl : cleanNode (.dir st op cs) = true := by
        rw [cleanNode]
        exact hclean
      cases ra with
      | some e0 =>
          simp only [mtptM] at h
          injection h with h1 h2 h3 h4 h5
          subst h4 h5
          simp [emitted, observedInExits]
      | none =>
      cases mi with
      | some e0 =>
          simp only [mtptM] at h
          injection h with h1 h2 h3 h4 h5
          subst h4 h5
          simp [emitted, observedInExits]
      | none =>
      cases bi with
      | some e0 =>
          simp only [mtptM] at h
          injection h with h1 h2 h3 h4 h5
          subst h4 h5
          simp [emitted, observedInExits]
      | none =>
      cases pi with
      | some e0 =>
          simp only [mtptM] at h
          injection h with h1 h2 h3 h4 h5
          subst h4 h5
          simp [emitted, observedInExits]
      | none =>
      cases si with
      | some e0 =>
          simp only [mtptM] at h
          injection h with h1 h2 h3 h4 h5
          subst h4 h5
          simp [emitted, observedInExits]
      | none =>
          have hres := consNode C g hg (.dir st op cs) [] path hcl
          simp only [mtptM] at h
          rw [if_pos hres.1] at h
          injection h with h1 h2 h3 h4 h5
          subst h4 h5
          exact hres.2

/-- Witness for C3's amended theorem on a concrete clean traversal: one
regular file `a`; tokens 300 (from `file_method`) and 200 (from `dir_exit`)
are each observed exactly once. -/
theorem mtpt_token_conservation_clean_witness :
    cleanRoot (.dirRoot 1 true [("a", FNode.file 5)]) = true
      ∧ (emitted trCleanRun : Multiset Nat)
          = ↑(observedInExits trCleanRun) + ↑((some 200 : Option Nat).toList) := by
  have hclean : cleanRoot (.dirRoot 1 true [("a", FNode.file 5)]) = true := by
    simp [cleanRoot, cleanList, cleanNode]
  have hrun : mtptM envOK cfgAll "/t" (.dirRoot 1 true [("a", .file 5)])
      = .ret 0 none true (some 200) trCleanRun := by
    simp +decide [mtptM, runNode, childOne, runChildren, enterStep, effEntries,
      envOK, cfgAll, cbsAll, trCleanRun]
  exact ⟨hclean, mtpt_token_conservation_clean envOK cfgAll "/t"
    (.dirRoot 1 true [("a", FNode.file 5)]) 0 none true (some 200) trCleanRun
    (fun _ _ _ _ => 200) rfl hclean hrun⟩

theorem mem_obsOfExitsAt {τ κ : Type} {tr : List (MtptEv τ κ)} {q : List String}
    {o : List (String × Option τ)} :
    o ∈ obsOfExitsAt tr q ↔
      ∃ e ∈ tr, isExitEv e = true ∧ evPos e = q ∧ evObs e = o := by
  unfold obsOfExitsAt
  rw [List.mem_filterMap]
  constructor
  · rintro ⟨e, he, hsome⟩
    refine ⟨e, he, ?_⟩
    cases e <;> simp [isExitEv, evPos, evObs] at hsome ⊢
    exact hsome
  · rintro ⟨e, he, hex, hpos, hobs⟩
    refine ⟨e, he, ?_⟩
    cases e <;> simp [isExitEv, evPos, evObs] at hex hpos hobs ⊢
    exact ⟨hpos, hobs⟩

theorem exitCountAt_eq_zero {τ κ : Type} {tr : List (MtptEv τ κ)} {q : List String}
    (h : ∀ e ∈ tr, isExitEv e = true → ¬ evPos e = q) : exitCountAt tr q = 0 := by
  unfold exitCountAt
  rw [List.length_eq_zero, List.filter_eq_nil_iff]
  intro e he
  have := h e he
  cases e <;> simp [isExitEv, evPos] at this ⊢
  exact this

/-- Every event of the `dir_enter` step sits at the task's own position and
is not an exit. -/
theorem enterStep_evs_shape {τ κ : Type} (C : MtptCfg τ κ) (pos : List String)
    (path : String) (st : Nat) :
    ∀ e ∈ (enterStep C pos path st).evs, evPos e = pos ∧ isExitEv e = false := by
  unfold enterStep
  rcases C.cbs.dirEnterM with _ | f <;> simp [evPos, isExitEv]

/-- Trace of the child loop: concatenation of the per-child traces. -/
theorem runChildren_trace_eq {τ κ : Type} (C : MtptCfg τ κ) :
    ∀ (cs : List (String × FNode)) (ppos : List String) (ppath : String),
      (runChildren C cs ppos ppath).trace
        = (cs.map fun c => (childOne C c.1 c.2 ppos ppath).trace).flatten
  | [], _, _ => by simp [runChildren]
  | (name, n) :: rest, ppos, ppath => by
      rw [runChildren]
      simp [runChildren_trace_eq C rest ppos ppath]

/-- Entries array of the child loop: concatenation of the per-child
records. -/
theorem runChildren_obs_eq {τ κ : Type} (C : MtptCfg τ κ) :
    ∀ (cs : List (String × FNode)) (ppos : List String) (ppath : String),
      (runChildren C cs ppos ppath).obs
        = (cs.map fun c => (childOne C c.1 c.2 ppos ppath).obs).flatten
  | [], _, _ => by simp [runChildren]
  | (name, n) :: rest, ppos, ppath => by
      rw [runChildren]
      simp [runChildren_obs_eq C rest ppos ppath]

/-- Every event of the child loop originates in one iteration. -/
theorem runChildren_event_origin {τ κ : Type} (C : MtptCfg τ κ)
    {cs : List (String × FNode)} {ppos : List String} {ppath : String}
    {e : MtptEv τ κ} (he : e ∈ (runChildren C cs ppos ppath).trace) :
    ∃ nm n, (nm, n) ∈ cs ∧ e ∈ (childOne C nm n ppos ppath).trace := by
  rw [runChildren_trace_eq] at he
  rw [List.mem_flatten] at he
  obtain ⟨l, hl, hel⟩ := he
  rw [List.mem_map] at hl
  obtain ⟨c, hc, rfl⟩ := hl
  exact ⟨c.1, c.2, hc, hel⟩

mutual
/-- Every event of a task's run sits at or below the task's position. -/
theorem posShape_node {τ κ : Type} (C : MtptCfg τ κ) :
    ∀ (n : FNode) (pos : List String) (path : String),
      ∀ e ∈ (runNode C n pos path).trace, ∃ s, evPos e = pos ++ s
  | .file st, pos, path => by
      rcases hf : C.cbs.fileM with _ | f <;> simp [runNode, hf, evPos]
  | .gone, pos, path => by simp [runNode]
  | .lerr, pos, path => by simp [runNode]
  | .dir st openOk cs, pos, path => by
      intro e he
      have hent := enterStep_evs_shape C pos path st
      have hkids := posShape_children C (effEntries C cs) pos path
      rw [runNode] at he
      by_cases hP : (enterStep C pos path st).proceed = false
      · rw [if_pos hP] at he
        exact ⟨[], by simp [(hent e he).1]⟩
      · rw [if_neg hP] at he
        by_cases hO : openOk = false
        · rw [if_pos hO] at he
          rcases hE : C.cbs.errM with _ | g
          · simp only [hE] at he
            exact ⟨[], by simp [(hent e he).1]⟩
          · simp only [hE, List.mem_append, List.mem_singleton] at he
            rcases he with he | rfl
            · exact ⟨[], by simp [(hent e he).1]⟩
            · exact ⟨[], by simp [evPos]⟩
        · rw [if_neg hO] at he
          by_cases hN : (runChildren C (effEntries C cs) pos path).allNotified = true
          · simp only [hN, if_true] at he
            rcases hG : C.cbs.dirExitM with _ | g
            · simp only [hG, List.mem_append] at he
              rcases he with he | he
              · exact ⟨[], by simp [(hent e he).1]⟩
              · obtain ⟨nm, s, hs⟩ := hkids e he
                exact ⟨nm :: s, by simp [hs]⟩
            · simp only [hG, List.mem_append, List.mem_singleton] at he
              rcases he with (he | he) | rfl
              · exact ⟨[], by simp [(hent e he).1]⟩
              · obtain ⟨nm, s, hs⟩ := hkids e he
                exact ⟨nm :: s, by simp [hs]⟩
              · exact ⟨[], by simp [evPos]⟩
          · rw [if_neg hN] at he
            simp only [List.mem_append] at he
            rcases he with he | he
            · exact ⟨[], by simp [(hent e he).1]⟩
            · obtain ⟨nm, s, hs⟩ := hkids e he
              exact ⟨nm :: s, by simp [hs]⟩
  termination_by n _ _ => sizeOf n
  decreasing_by
    simp [effEntries]
    split
    · have := perm_sizeOf_eq (List.perm_insertionSort entLe cs)
      omega
    · omega

/-- Every event of one child-loop iteration sits at or below the child's
position `ppos ++ [nm]`. -/
theorem posShape_childOne {τ κ : Type} (C : MtptCfg τ κ) :
    ∀ (nm : String) (n : FNode) (ppos : List String) (ppath : String),
      ∀ e ∈ (childOne C nm n ppos ppath).trace, ∃ s, evPos e = ppos ++ nm :: s
  | nm, .gone, ppos, ppath => by simp [childOne]
  | nm, .lerr, ppos, ppath => by
      rcases hE : C.cbs.errM with _ | g <;> simp [childOne, hE, evPos]
  | nm, .file st, ppos, ppath => by
      rcases hf : C.cbs.fileM with _ | f <;> simp [childOne, hf, evPos]
  | nm, .dir st openOk ccs, ppos, ppath => by
      intro e he
      rw [childOne] at he
      obtain ⟨s, hs⟩ := posShape_node C (.dir st openOk ccs) (ppos ++ [nm])
        (ppath ++ "/" ++ nm) e he
      exact ⟨s, by simpa using hs⟩
  termination_by nm n _ _ => sizeOf n + 1
  decreasing_by
    simp

/-- Every event of the child loop sits below the enumerating directory's
position. -/
theorem posShape_children {τ κ : Type} (C : MtptCfg τ κ) :
    ∀ (cs : List (String × FNode)) (ppos : List String) (ppath : String),
      ∀ e ∈ (runChildren C cs ppos ppath).trace, ∃ nm s, evPos e = ppos ++ nm :: s
  | [], ppos, ppath => by simp [runChildren]
  | (name, n) :: rest, ppos, ppath => by
      intro e he
      rw [runChildren] at he
      simp only [List.mem_append] at he
      rcases he with he | he
      · obtain ⟨s, hs⟩ := posShape_childOne C name n ppos ppath e he
        exact ⟨name, s, hs⟩
      · exact posShape_children C rest ppos ppath e he
  termination_by cs _ _ => sizeOf cs
  decreasing_by
    all_goals simp
    all_goals omega
end

theorem lookupChild_mem : ∀ {cs : List (String × FNode)} {nm : String} {n : FNode},
    lookupChild cs nm = some n → (nm, n) ∈ cs
  | [], nm, n, h => by simp [lookupChild] at h
  | (nm1, n1) :: rest, nm, n, h => by
      rw [lookupChild] at h
      by_cases he : nm1 = nm
      · rw [if_pos he] at h
        injection h with h
        subst he h
        exact List.mem_cons_self _ _
      · rw [if_neg he] at h
        exact List.mem_cons_of_mem _ (lookupChild_mem h)

theorem mem_lookupChild : ∀ {cs : List (String × FNode)} {nm : String} {n : FNode},
    (nm, n) ∈ cs → ∃ cn, lookupChild cs nm = some cn
  | [], nm, n, h => by simp at h
  | (nm1, n1) :: rest, nm, n, h => by
      rw [lookupChild]
      by_cases he : nm1 = nm
      · exact ⟨n1, by rw [if_pos he]⟩
      · rw [if_neg he]
        rcases List.mem_cons.mp h with heq | hmem
        · injection heq with h1 h2
          exact absurd h1.symm he
        · exact mem_lookupChild hmem

theorem keyed_nodup_eq : ∀ {cs : List (String × FNode)} {nm : String} {a b : FNode},
    (cs.map Prod.fst).Nodup → (nm, a) ∈ cs → (nm, b) ∈ cs → a = b
  | [], nm, a, b, _, ha, _ => by simp at ha
  | (nm1, n1) :: rest, nm, a, b, hnd, ha, hb => by
      rw [List.map_cons, List.nodup_cons] at hnd
      rcases List.mem_cons.mp ha with haeq | hamem <;>
        rcases List.mem_cons.mp hb with hbeq | hbmem
      · injection haeq with ha1 ha2
        injection hbeq with hb1 hb2
        rw [ha2, hb2]
      · injection haeq with h1 h2
        subst h1
        exact absurd (List.mem_map_of_mem Prod.fst hbmem) (by simpa using hnd.1)
      · injection hbeq with h1 h2
        subst h1
        exact absurd (List.mem_map_of_mem Prod.fst hamem) (by simpa using hnd.1)
      · exact keyed_nodup_eq hnd.2 hamem hbmem

theorem nodupTree_dir {st : Nat} {b : Bool} {cs : List (String × FNode)}
    (h : nodupTree (.dir st b cs) = true) :
    (cs.map Prod.fst).Nodup ∧ nodupList cs = true := by
  rw [nodupTree, Bool.and_eq_true, decide_eq_true_iff] at h
  exact h

theorem nodupList_mem : ∀ {cs : List (String × FNode)} {nm : String} {n : FNode},
    nodupList cs = true → (nm, n) ∈ cs → nodupTree n = true
  | [], nm, n, _, h => by simp at h
  | (nm1, n1) :: rest, nm, n, hnd, h => by
      rw [nodupList, Bool.and_eq_true] at hnd
      rcases List.mem_cons.mp h with heq | hmem
      · injection heq with h1 h2
        subst h2
        exact hnd.1
      · exact nodupList_mem hnd.2 hmem

theorem effEntries_perm {τ κ : Type} (C : MtptCfg τ κ) (cs : List (String × FNode)) :
    (effEntries C cs).Perm cs := by
  unfold effEntries
  split
  · exact List.perm_insertionSort entLe cs
  · exact List.Perm.refl cs

theorem mem_effEntries {τ κ : Type} (C : MtptCfg τ κ) {cs : List (String × FNode)}
    {c : String × FNode} : c ∈ effEntries C cs ↔ c ∈ cs :=
  (effEntries_perm C cs).mem_iff

theorem effEntries_keys_nodup {τ κ : Type} (C : MtptCfg τ κ)
    {cs : List (String × FNode)} (h : (cs.map Prod.fst).Nodup) :
    ((effEntries C cs).map Prod.fst).Nodup :=
  (((effEntries_perm C cs).map Prod.fst).nodup_iff).mpr h

theorem pathAt_append (path : String) :
    ∀ (q1 q2 : List String), pathAt path (q1 ++ q2) = pathAt (pathAt path q1) q2
  | [], q2 => rfl
  | nm :: rest, q2 => pathAt_append (path ++ "/" ++ nm) rest q2

theorem nodeAt_dir_of : ∀ {c : FNode} {q : List String} {a : Nat} {b : Bool}
    {d : List (String × FNode)}, nodeAt c q = some (.dir a b d) →
    ∃ a2 b2 d2, c = FNode.dir a2 b2 d2 := by
  intro c q a b d h
  cases q with
  | nil =>
      rw [nodeAt] at h
      injection h with h
      exact ⟨a, b, d, h⟩
  | cons nm rest =>
      cases c with
      | dir a2 b2 d2 => exact ⟨a2, b2, d2, rfl⟩
      | file st => exact Option.noConfusion h
      | gone => exact Option.noConfusion h
      | lerr => exact Option.noConfusion h

/-- A directory whose `dir_enter` returns zero contributes exactly the
`dir_enter` event: no descent, a NULL slot, and the parent is notified
(`mtpt.c:252-263`). -/
theorem runNode_skip {τ κ : Type} (C : MtptCfg τ κ)
    (f : String → Nat → Bool × Option κ) (hf : C.cbs.dirEnterM = some f)
    {st : Nat} {b : Bool} {cs : List (String × FNode)} {pos : List String}
    {path : String} (hskip : (f path st).1 = false) :
    runNode C (.dir st b cs) pos path = ⟨[.enterE pos path st false], none, true⟩ := by
  rw [runNode]
  rw [if_pos (by simp [enterStep, hf, hskip])]
  simp [enterStep, hf, hskip]

theorem pos_ne_self_append_cons {pos : List String} {x : String} {s : List String} :
    ¬ pos = pos ++ x :: s := by
  intro h
  have := congrArg List.length h
  simp at this

/-- Every event of a directory task's run is either an event of the task
itself at its own position (never an exit except the one singled out), an
event of its child loop, or the task's own `dir_exit` event. -/
theorem runNode_dir_trace_cases {τ κ : Type} (C : MtptCfg τ κ) {st : Nat}
    {openOk : Bool} {cs : List (String × FNode)} {pos : List String} {path : String}
    {e : MtptEv τ κ} (he : e ∈ (runNode C (.dir st openOk cs) pos path).trace) :
    (evPos e = pos ∧ isExitEv e = false)
      ∨ e ∈ (runChildren C (effEntries C cs) pos path).trace
      ∨ ∃ g, C.cbs.dirExitM = some g
          ∧ e = .exitE pos path st (enterStep C pos path st).cont
              (runChildren C (effEntries C cs) pos path).obs
              (g path st (enterStep C pos path st).cont
                (runChildren C (effEntries C cs) pos path).obs) := by
  have hent := enterStep_evs_shape C pos path st
  rw [runNode] at he
  by_cases hP : (enterStep C pos path st).proceed = false
  · rw [if_pos hP] at he
    exact Or.inl (hent e he)
  · rw [if_neg hP] at he
    by_cases hO : openOk = false
    · rw [if_pos hO] at he
      rcases hE : C.cbs.errM with _ | g
      · simp only [hE] at he
        exact Or.inl (hent e he)
      · simp only [hE, List.mem_append, List.mem_singleton] at he
        rcases he with he | rfl
        · exact Or.inl (hent e he)
        · exact Or.inl ⟨rfl, rfl⟩
    · rw [if_neg hO] at he
      by_cases hN : (runChildren C (effEntries C cs) pos path).allNotified = true
      · simp only [hN, if_true] at he
        rcases hG : C.cbs.dirExitM with _ | g
        · simp only [hG, List.mem_append] at he
          rcases he with he | he
          · exact Or.inl (hent e he)
          · exact Or.inr (Or.inl he)
        · simp only [hG, List.mem_append, List.mem_singleton] at he
          rcases he with (he | he) | rfl
          · exact Or.inl (hent e he)
          · exact Or.inr (Or.inl he)
          · exact Or.inr (Or.inr ⟨g, rfl, rfl⟩)
      · rw [if_neg hN] at he
        simp only [List.mem_append] at he
        rcases he with he | he
        · exact Or.inl (hent e he)
        · exact Or.inr (Or.inl he)

/-- Descent lemma: an event of the run that sits strictly below the
directory at position `qp` originates in that directory's child loop, and a
`dir_exit` event at exactly `qp` observes that directory's entries array. -/
theorem at_descend {τ κ : Type} (C : MtptCfg τ κ) :
    ∀ (qp : List String) (root : FNode) (pos : List String) (path : String)
      (pst : Nat) (pb : Bool) (pcs : List (String × FNode)),
      nodupTree root = true →
      nodeAt root qp = some (.dir pst pb pcs) →
      (∀ e ∈ (runNode C root pos path).trace, ∀ cname s,
          evPos e = pos ++ qp ++ cname :: s →
          ∃ cn, lookupChild pcs cname = some cn
            ∧ e ∈ (childOne C cname cn (pos ++ qp) (pathAt path qp)).trace)
        ∧ (∀ e ∈ (runNode C root pos path).trace, isExitEv e = true →
            evPos e = pos ++ qp →
            evObs e = (runChildren C (effEntries C pcs) (pos ++ qp) (pathAt path qp)).obs)
  | [], root, pos, path, pst, pb, pcs, hnd, hp => by
      rw [nodeAt] at hp
      injection hp with hp
      subst hp
      obtain ⟨hkeys, hlist⟩ := nodupTree_dir hnd
      constructor
      · intro e he cname s hpos
        rw [List.append_nil] at hpos
        rcases runNode_dir_trace_cases C he with ⟨hp1, _⟩ | he1 | ⟨g, hG, rfl⟩
        · rw [hp1] at hpos
          exact absurd hpos pos_ne_self_append_cons
        · obtain ⟨nm, n, hmem, hone⟩ := runChildren_event_origin C he1
          obtain ⟨s2, hs2⟩ := posShape_childOne C nm n pos path e hone
          rw [hs2] at hpos
          have hcn : nm :: s2 = cname :: s := List.append_cancel_left hpos
          injection hcn with hnm hs
          subst hnm
          have hmemcs : (nm, n) ∈ pcs := (mem_effEntries C).mp hmem
          obtain ⟨cn, hcn2⟩ := mem_lookupChild hmemcs
          have hneq : n = cn := keyed_nodup_eq hkeys hmemcs (lookupChild_mem hcn2)
          rw [hneq] at hone
          exact ⟨cn, hcn2, by simpa [pathAt] using hone⟩
        · simp only [evPos] at hpos
          exact absurd hpos pos_ne_self_append_cons
      · intro e he hex hpos
        rw [List.append_nil] at hpos
        rcases runNode_dir_trace_cases C he with ⟨hp1, hx1⟩ | he1 | ⟨g, hG, rfl⟩
        · rw [hex] at hx1
          cases hx1
        · obtain ⟨nm, n, hmem, hone⟩ := runChildren_event_origin C he1
          obtain ⟨s2, hs2⟩ := posShape_childOne C nm n pos path e hone
          rw [hs2] at hpos
          exact absurd hpos.symm pos_ne_self_append_cons
        · simp [evObs, pathAt]
  | nm0 :: qp2, root, pos, path, pst, pb, pcs, hnd, hp => by
      obtain ⟨rst, rb, rcs, rfl⟩ := nodeAt_dir_of hp
      rw [nodeAt] at hp
      rcases hl : lookupChild rcs nm0 with _ | c
      · rw [hl] at hp
        cases hp
      · rw [hl] at hp
        obtain ⟨hkeys, hlist⟩ := nodupTree_dir hnd
        have hndc : nodupTree c = true := nodupList_mem hlist (lookupChild_mem hl)
        obtain ⟨a2, b2, d2, hceq⟩ := nodeAt_dir_of hp
        rw [hceq] at hp
        have IH := at_descend C qp2 (.dir a2 b2 d2) (pos ++ [nm0]) (path ++ "/" ++ nm0)
          pst pb pcs (by rw [← hceq]; exact hndc) hp
        have hassoc : pos ++ [nm0] ++ qp2 = pos ++ nm0 :: qp2 := by simp
        constructor
        · intro e he cname s hpos
          rcases runNode_dir_trace_cases C he with ⟨hp1, _⟩ | he1 | ⟨g, hG, rfl⟩
          · rw [hp1] at hpos
            rw [show pos ++ (nm0 :: qp2) ++ cname :: s
                = pos ++ nm0 :: (qp2 ++ cname :: s) from by simp] at hpos
            exact absurd hpos pos_ne_self_append_cons
          · obtain ⟨nm, n, hmem, hone⟩ := runChildren_event_origin C he1
            obtain ⟨s2, hs2⟩ := posShape_childOne C nm n pos path e hone
            rw [hs2] at hpos
            rw [show pos ++ (nm0 :: qp2) ++ cname :: s
                = pos ++ nm0 :: (qp2 ++ cname :: s) from by simp] at hpos
            have hcn : nm :: s2 = nm0 :: (qp2 ++ cname :: s) :=
              List.append_cancel_left hpos
            injection hcn with hnm hs
            subst hnm
            have hmemcs : (nm, n) ∈ rcs := (mem_effEntries C).mp hmem
            have hnc : n = c := keyed_nodup_eq hkeys hmemcs (lookupChild_mem hl)
            rw [hnc, hceq] at hone
            rw [childOne] at hone
            have he2 : e ∈ (runNode C (.dir a2 b2 d2) (pos ++ [nm])
                (path ++ "/" ++ nm)).trace := hone
            have hpos2 : evPos e = (pos ++ [nm]) ++ qp2 ++ cname :: s := by
              rw [hs2, hs]
              simp
            obtain ⟨cn, hcn, hin⟩ := IH.1 e he2 cname s hpos2
            refine ⟨cn, hcn, ?_⟩
            rw [hassoc] at hin
            exact hin
          · simp only [evPos] at hpos
            rw [show pos ++ (nm0 :: qp2) ++ cname :: s
                = pos ++ nm0 :: (qp2 ++ cname :: s) from by simp] at hpos
            exact absurd hpos pos_ne_self_append_cons
        · intro e he hex hpos
          rcases runNode_dir_trace_cases C he with ⟨hp1, hx1⟩ | he1 | ⟨g, hG, rfl⟩
          · rw [hex] at hx1
            cases hx1
          · obtain ⟨nm, n, hmem, hone⟩ := runChildren_event_origin C he1
            obtain ⟨s2, hs2⟩ := posShape_childOne C nm n pos path e hone
            rw [hs2] at hpos
            rw [show pos ++ (nm0 :: qp2) = pos ++ nm0 :: qp2 from by simp] at hpos
            have hcn : nm :: s2 = nm0 :: qp2 := List.append_cancel_left hpos
            injection hcn with hnm hs
            subst hnm
            have hmemcs : (nm, n) ∈ rcs := (mem_effEntries C).mp hmem
            have hnc : n = c := keyed_nodup_eq hkeys hmemcs (lookupChild_mem hl)
            rw [hnc, hceq] at hone
            rw [childOne] at hone
            have he2 : e ∈ (runNode C (.dir a2 b2 d2) (pos ++ [nm])
                (path ++ "/" ++ nm)).trace := hone
            have hpos2 : evPos e = (pos ++ [nm]) ++ qp2 := by
              rw [hs2, hs]
              simp
            have := IH.2 e he2 hex hpos2
            rw [hassoc] at this
            exact this
          · simp only [evPos] at hpos
            exact absurd hpos pos_ne_self_append_cons

theorem childOne_obs_gone {τ κ : Type} (C : MtptCfg τ κ) (nm : String)
    (ppos : List String) (ppath : String) :
    (childOne C nm .gone ppos ppath).obs = [(nm, none)] := by
  rw [childOne]

theorem childOne_obs_dir {τ κ : Type} (C : MtptCfg τ κ) (nm : String) (st : Nat)
    (b : Bool) (ccs : List (String × FNode)) (ppos : List String) (ppath : String) :
    (childOne C nm (.dir st b ccs) ppos ppath).obs
      = [(nm, (runNode C (.dir st b ccs) (ppos ++ [nm]) (ppath ++ "/" ++ nm)).slot)] := by
  rw [childOne]

theorem runChildren_obs_of_mem {τ κ : Type} (C : MtptCfg τ κ)
    {cs : List (String × FNode)} {nm : String} {n : FNode} {ppos : List String}
    {ppath : String} {x : Option τ} (hmem : (nm, n) ∈ cs)
    (hobs : (childOne C nm n ppos ppath).obs = [(nm, x)]) :
    (nm, x) ∈ (runChildren C cs ppos ppath).obs := by
  rw [runChildren_obs_eq, List.mem_flatten]
  refine ⟨[(nm, x)], ?_, List.mem_singleton_self _⟩
  rw [← hobs]
  exact List.mem_map_of_mem _ hmem

/-- Claim C2: a directory whose `dir_enter` callback returns zero is skipped:
no `dir_exit` is ever invoked for it (nor any callback below it — its run is
the single `dir_enter` event), and in every `dir_exit` invocation of its
parent the directory's entry carries NULL data. -/
theorem mtpt_dir_enter_false_skips {τ κ : Type} (C : MtptCfg τ κ)
    (f : String → Nat → Bool × Option κ) (root : FNode) (path : String)
    (qp : List String) (cname : String) (pst cst : Nat) (pb cb : Bool)
    (pcs ccs : List (String × FNode))
    (hf : C.cbs.dirEnterM = some f)
    (hnd : nodupTree root = true)
    (hp : nodeAt root qp = some (.dir pst pb pcs))
    (hc : lookupChild pcs cname = some (.dir cst cb ccs))
    (hskip : (f (pathAt path (qp ++ [cname])) cst).1 = false) :
    exitCountAt (runNode C root [] path).trace (qp ++ [cname]) = 0
      ∧ ∀ obs ∈ obsOfExitsAt (runNode C root [] path).trace qp, (cname, none) ∈ obs := by
  have hD := at_descend C qp root [] path pst pb pcs hnd hp
  have hskip2 : (f (pathAt path qp ++ "/" ++ cname) cst).1 = false := by
    rw [pathAt_append] at hskip
    exact hskip
  have hchildrun : runNode C (.dir cst cb ccs) (qp ++ [cname])
      (pathAt path qp ++ "/" ++ cname)
      = ⟨[.enterE (qp ++ [cname]) (pathAt path qp ++ "/" ++ cname) cst false],
          none, true⟩ :=
    runNode_skip C f hf hskip2
  constructor
  · apply exitCountAt_eq_zero
    intro e he hex hpos
    obtain ⟨cn, hcn, hone⟩ := hD.1 e he cname [] (by simpa using hpos)
    have hcneq : cn = FNode.dir cst cb ccs := by
      rw [hcn] at hc
      injection hc
    rw [hcneq, childOne] at hone
    simp only [List.nil_append] at hone
    rw [hchildrun] at hone
    simp at hone
    rw [hone] at hex
    simp [isExitEv] at hex
  · intro obs hobs
    rw [mem_obsOfExitsAt] at hobs
    obtain ⟨e, he, hex, hpos, hobsEq⟩ := hobs
    have := hD.2 e he hex (by simpa using hpos)
    rw [← hobsEq, this]
    apply runChildren_obs_of_mem C ((mem_effEntries C).mpr (lookupChild_mem hc))
    rw [childOne_obs_dir]
    simp only [List.nil_append]
    rw [hchildrun]

/-- Claim C5 (amended): a child listed by `readdir` whose `lstat` fails with
`ENOENT` is silently skipped — no callback of any kind is invoked for it or
below it — but its entry *remains* in the entries array passed to the
parent's `dir_exit`, with NULL data (the array is built from the `readdir`
names before the `lstat` loop; `continue` does not remove the entry). -/
theorem mtpt_gone_child_skipped {τ κ : Type} (C : MtptCfg τ κ)
    (root : FNode) (path : String) (qp : List String) (cname : String)
    (pst : Nat) (pb : Bool) (pcs : List (String × FNode))
    (hnd : nodupTree root = true)
    (hp : nodeAt root qp = some (.dir pst pb pcs))
    (hc : lookupChild pcs cname = some .gone) :
    (∀ e ∈ (runNode C root [] path).trace, ∀ s, ¬ evPos e = qp ++ cname :: s)
      ∧ ∀ obs ∈ obsOfExitsAt (runNode C root [] path).trace qp, (cname, none) ∈ obs := by
  have hD := at_descend C qp root [] path pst pb pcs hnd hp
  constructor
  · intro e he s hpos
    obtain ⟨cn, hcn, hone⟩ := hD.1 e he cname s (by simpa using hpos)
    have hcneq : cn = FNode.gone := by
      rw [hcn] at hc
      injection hc
    rw [hcneq, childOne] at hone
    simp at hone
  · intro obs hobs
    rw [mem_obsOfExitsAt] at hobs
    obtain ⟨e, he, hex, hpos, hobsEq⟩ := hobs
    have := hD.2 e he hex (by simpa using hpos)
    rw [← hobsEq, this]
    apply runChildren_obs_of_mem C ((mem_effEntries C).mpr (lookupChild_mem hc))
    rw [childOne_obs_gone]

/-- Witness for C2's theorem: with `dir_enter` rejecting `/t/skipme`, the run
of `skipTree` has zero `dir_exit` invocations for `skipme` and every
`dir_exit` of the root sees the `skipme` entry with NULL data. -/
theorem mtpt_dir_enter_false_skips_witness :
    (nodupTree skipTree = true
        ∧ lookupChild [("skipme", FNode.dir 7 true [("x", FNode.file 3)]),
            ("z", FNode.file 9)] "skipme" = some (.dir 7 true [("x", FNode.file 3)])
        ∧ ((fun p (_ : Nat) => (!(p == "/t/skipme"), (none : Option Nat)))
            (pathAt "/t" ([] ++ ["skipme"])) 7).1 = false)
      ∧ (exitCountAt (runNode cfgSkip skipTree [] "/t").trace ([] ++ ["skipme"]) = 0
          ∧ ∀ obs ∈ obsOfExitsAt (runNode cfgSkip skipTree [] "/t").trace [],
              ("skipme", none) ∈ obs) := by
  have h1 : nodupTree skipTree = true := by
    simp +decide [skipTree, nodupTree, nodupList]
  refine ⟨⟨h1, rfl, by decide⟩, ?_⟩
  exact mtpt_dir_enter_false_skips cfgSkip
    (fun p _ => (!(p == "/t/skipme"), none)) skipTree "/t" [] "skipme" 1 7 true true
    [("skipme", FNode.dir 7 true [("x", FNode.file 3)]), ("z", FNode.file 9)]
    [("x", FNode.file 3)] rfl h1 rfl rfl (by decide)

/-- Witness for C5's amended theorem: the run of `goneTree` has no callback
at all for `x`, and the root's `dir_exit` sees the `x` entry with NULL
data. -/
theorem mtpt_gone_child_skipped_witness :
    (nodupTree goneTree = true
        ∧ lookupChild [("x", FNode.gone), ("z", FNode.file 9)] "x" = some .gone)
      ∧ ((∀ e ∈ (runNode cfgAll goneTree [] "/t").trace, ∀ s,
            ¬ evPos e = [] ++ "x" :: s)
          ∧ ∀ obs ∈ obsOfExitsAt (runNode cfgAll goneTree [] "/t").trace [],
              ("x", none) ∈ obs) := by
  have h1 : nodupTree goneTree = true := by
    simp +decide [goneTree, nodupTree, nodupList]
  refine ⟨⟨h1, rfl⟩, ?_⟩
  exact mtpt_gone_child_skipped cfgAll goneTree "/t" [] "x" 1 true
    [("x", FNode.gone), ("z", FNode.file 9)] h1 rfl rfl

/-- Counterexample to claim C5 as stated: the child `x` vanishes between
`readdir` and the engine's `lstat` (`ENOENT`).  No callback fires for `x`,
but the entries array passed to the root's `dir_exit` still *contains* the
`x` record, with NULL data — the claim instead says the entry is absent from
the array. -/
theorem mtpt_gone_entry_present_counterexample :
    mtptM envOK cfgAll "/t" (.dirRoot 1 true [("x", .gone), ("z", .file 9)])
        = .ret 0 none true (some 200) trGone
      ∧ obsOfExitsAt trGone [] = [[("x", none), ("z", some 300)]]
      ∧ ("x", (none : Option Nat)) ∈ [("x", (none : Option Nat)), ("z", some 300)] := by
  refine ⟨?_, by decide, by decide⟩
  simp +decide [mtptM, runNode, childOne, runChildren, enterStep, effEntries,
    envOK, cfgAll, cbsAll, trGone]

/-- Concrete exercise of the doubling path: ten tasks pushed through a ring
of initial capacity `2 ^ 0 = 1` (which doubles four times) come back out in
exactly submission order. -/
theorem fifo_doubling_example :
    (fifoRun [QOp.add 10, QOp.add 11, QOp.add 12, QOp.add 13, QOp.add 14,
        QOp.pop, QOp.add 15, QOp.add 16, QOp.pop, QOp.add 17, QOp.add 18,
        QOp.add 19, QOp.pop, QOp.pop, QOp.pop, QOp.pop, QOp.pop, QOp.pop,
        QOp.pop, QOp.pop, QOp.pop]
      (fifoInit (0 : Nat) 0)).2
      = [10, 11, 12, 13, 14, 15, 16, 17, 18, 19] := by
  decide
